import Mathlib

/-!
# Verification of the yacs configuration system (`src/yacs/config.py`)

Shallow embedding of `CfgNode` and its merge/freeze/decode/coerce machinery.

Modelling conventions:
* Python values that appear in configuration trees are embedded in the
  inductive `Value` below.  The universe covers ints, booleans, `None`,
  strings, lists, tuples, plain dicts and `CfgNode`s — the types the
  claims exercise.  Python floats and numpy arrays lie outside the
  modelled universe (no claim involves them); the `np.ndarray` branch of
  `_check_and_coerce_cfg_value_type` is therefore vacuous here and noted
  in a comment at that definition.
* A `CfgNode`'s `__dict__` holds exactly the three metadata fields the
  constructor installs (`__immutable__`, `__deprecated_keys__`,
  `__renamed_keys__`); they are embedded as the structure `Meta`.
* Python dicts are insertion-ordered; they are embedded as association
  lists (`List (String × Value)`), with lookup/update acting on the
  first occurrence of a key.
* In-place mutation is embedded as state passing: each mutating
  operation returns the updated node, and merge results carry the
  partially-mutated target so that exception-time state is faithful.
* The merge engine recurses through the output of the value codec, which
  structural recursion cannot see; it therefore takes an explicit fuel
  argument, and the public wrapper instantiates the fuel with the
  computable bound `vsizeEntries`, proved sufficient below.  The literal
  parser is fuelled by the input length.
-/

set_option autoImplicit false
set_option linter.unusedVariables false

/-- The value stored in `CfgNode.__dict__[RENAMED_KEYS][old]`: either just the
new key, or a pair of the new key and an extra instruction message
(`register_renamed_key`, config.py lines 146-157). -/
inductive RenamedVal where
  | plain (newKey : String)
  | withMsg (newKey : String) (msg : String)
deriving DecidableEq, Repr

/-- The out-of-band metadata a `CfgNode.__init__` stores in `self.__dict__`
(config.py lines 29-49): the `__immutable__` flag, the `__deprecated_keys__`
set and the `__renamed_keys__` mapping. -/
structure Meta where
  immutable : Bool
  deprecated_keys : List String
  renamed_keys : List (String × RenamedVal)
deriving DecidableEq, Repr

/-- Metadata as installed by `CfgNode.__init__`: mutable, nothing registered. -/
def metaDefault : Meta := ⟨false, [], []⟩

/-- The universe of configuration values: Python ints, booleans, `None`,
strings, lists, tuples, plain dicts, and `CfgNode`s (a dict subclass carrying
`Meta`).  `vdict` is a plain `dict` (e.g. produced by the yaml parser or
`ast.literal_eval`); `vnode` is a `CfgNode` with its entries and metadata. -/
inductive Value where
  | vint (n : Int)
  | vbool (b : Bool)
  | vnone
  | vstr (s : String)
  | vlist (xs : List Value)
  | vtuple (xs : List Value)
  | vdict (es : List (String × Value))
  | vnode (es : List (String × Value)) (m : Meta)

/-- Entry lists of a Python dict: insertion-ordered association lists. -/
abbrev Entries := List (String × Value)

/-- `d[k]` lookup on a dict: first entry with the given key. -/
def lookupE (es : Entries) (k : String) : Option Value :=
  match es with
  | [] => none
  | (k', v) :: rest => if k' = k then some v else lookupE rest k

/-- Python `k in d`. -/
def containsKey (es : Entries) (k : String) : Bool :=
  (lookupE es k).isSome

/-- Python `d[k] = v`: overwrite the entry in place when the key exists
(keeping its position, as insertion-ordered dicts do), append it otherwise. -/
def setEntry (es : Entries) (k : String) (v : Value) : Entries :=
  match es with
  | [] => [(k, v)]
  | (k', v') :: rest =>
    if k' = k then (k, v) :: rest else (k', v') :: setEntry rest k v

@[simp] theorem lookupE_nil (k : String) : lookupE [] k = none := rfl

@[simp] theorem lookupE_cons (k k' : String) (v : Value) (rest : Entries) :
    lookupE ((k', v) :: rest) k = if k' = k then some v else lookupE rest k := rfl

@[simp] theorem setEntry_nil (k : String) (v : Value) :
    setEntry [] k v = [(k, v)] := rfl

@[simp] theorem setEntry_cons (k k' : String) (v v' : Value) (rest : Entries) :
    setEntry ((k', v') :: rest) k v =
      if k' = k then (k, v) :: rest else (k', v') :: setEntry rest k v := rfl

/-- Keys are preserved by an overwriting `setEntry`. -/
theorem map_fst_setEntry (es : Entries) (k : String) (v : Value)
    (h : containsKey es k = true) :
    (setEntry es k v).map Prod.fst = es.map Prod.fst := by
  induction es with
  | nil => simp [containsKey, lookupE] at h
  | cons p rest ih =>
    obtain ⟨k', v'⟩ := p
    by_cases hk : k' = k
    · subst hk; simp [setEntry]
    · simp only [setEntry, if_neg hk, List.map_cons, List.cons.injEq, true_and]
      apply ih
      simpa [containsKey, lookupE, hk] using h

/-- `setEntry` at one key does not disturb lookups at another key. -/
theorem lookupE_setEntry_ne (es : Entries) (k k' : String) (v : Value)
    (h : k ≠ k') :
    lookupE (setEntry es k v) k' = lookupE es k' := by
  induction es with
  | nil => simp [setEntry, lookupE, h]
  | cons p rest ih =>
    obtain ⟨k₀, v₀⟩ := p
    by_cases hk : k₀ = k
    · subst hk; simp [setEntry, lookupE, h]
    · simp [setEntry, hk, lookupE, ih]

/-- `setEntry` stores its value at the written key. -/
theorem lookupE_setEntry_self (es : Entries) (k : String) (v : Value) :
    lookupE (setEntry es k v) k = some v := by
  induction es with
  | nil => simp [setEntry, lookupE]
  | cons p rest ih =>
    obtain ⟨k₀, v₀⟩ := p
    by_cases hk : k₀ = k
    · subst hk; simp [setEntry, lookupE]
    · simp [setEntry, hk, lookupE, ih]

/-! ## Python type names, `str()`/`repr()` on the modelled universe -/

/-- The name of the Python type of a value, standing for the `type(x)` object
(`type_a is type_b` becomes equality of these names; in the modelled universe
distinct names are distinct types). -/
def pyTypeName : Value → String
  | .vint _ => "int"
  | .vbool _ => "bool"
  | .vnone => "NoneType"
  | .vstr _ => "str"
  | .vlist _ => "list"
  | .vtuple _ => "tuple"
  | .vdict _ => "dict"
  | .vnode _ _ => "CfgNode"

/-- Whether the value is a `CfgNode` (`isinstance(v, CfgNode)`). -/
def Value.isNode : Value → Bool
  | .vnode _ _ => true
  | _ => false

/-- `isinstance(v, dict)`: plain dicts and `CfgNode`s (a dict subclass). -/
def Value.isMapping : Value → Bool
  | .vdict _ => true
  | .vnode _ _ => true
  | _ => false

/-- `isinstance(v, str)`. -/
def Value.isStr : Value → Bool
  | .vstr _ => true
  | _ => false

mutual
/-- A computable structural size for `Value`, used to bound the fuel of the
fuelled functions below. -/
def vsize : Value → Nat
  | .vlist xs => 1 + vsizeList xs
  | .vtuple xs => 1 + vsizeList xs
  | .vdict es => 1 + vsizeEntries es
  | .vnode es _ => 1 + vsizeEntries es
  | _ => 1

def vsizeList : List Value → Nat
  | [] => 1
  | x :: xs => 1 + vsize x + vsizeList xs

def vsizeEntries : Entries → Nat
  | [] => 1
  | (_, v) :: es => 1 + vsize v + vsizeEntries es
end

mutual
/-- Python `repr` on the modelled universe.  Strings are rendered between
single quotes without escape processing — the values the development
evaluates contain no quotes or backslashes.  Dicts and `CfgNode`s render as
dict displays, `CfgNode` having no `__repr__` override. -/
def pyRepr : Value → String
  | .vint n => toString n
  | .vbool b => if b then "True" else "False"
  | .vnone => "None"
  | .vstr s => "'" ++ s ++ "'"
  | .vlist xs => "[" ++ String.intercalate ", " (pyReprList xs) ++ "]"
  | .vtuple [] => "()"
  | .vtuple [x] => "(" ++ pyRepr x ++ ",)"
  | .vtuple xs => "(" ++ String.intercalate ", " (pyReprList xs) ++ ")"
  | .vdict es => "\x7b" ++ String.intercalate ", " (pyReprEntries es) ++ "\x7d"
  | .vnode es _ => "\x7b" ++ String.intercalate ", " (pyReprEntries es) ++ "\x7d"

def pyReprList : List Value → List String
  | [] => []
  | x :: xs => pyRepr x :: pyReprList xs

def pyReprEntries : Entries → List String
  | [] => []
  | (k, v) :: es => ("'" ++ k ++ "': " ++ pyRepr v) :: pyReprEntries es
end

/-- Python `str(x)`: the string itself for strings, `repr` otherwise (ints,
booleans, `None`, containers). -/
def pyStr (v : Value) : String :=
  match v with
  | .vstr s => s
  | v => pyRepr v

/-! ## Errors

The exceptions the source raises, carried structurally (constructor fields are
the data the exception message names).  The spec's taxonomy maps as:
`ImmutableWriteError` = the `AttributeError` of `CfgNode.__setattr__` (line 66),
`KeyRenamedError` = the `KeyError` of `raise_key_rename_error` (line 177),
`UnknownKeyError` = the `KeyError` of `_merge_a_into_b` (line 215),
`TypeMismatchError` = the `ValueError` of `_check_and_coerce_cfg_value_type`
(line 286). -/
inductive PyErr where
  /-- `AttributeError('Attempted to set "{name}" to "{value}", but CfgNode is
  immutable')` — names the attempted key and value. -/
  | immutableWrite (name : String) (value : Value)
  /-- `AttributeError(name)` from `CfgNode.__getattr__`. -/
  | attributeNotFound (name : String)
  /-- `KeyError("Key {old} was renamed to {new}; please update your
  config.{msg}")` — names the old and the new key. -/
  | keyRenamed (oldKey : String) (newKey : String) (msg : Option String)
  /-- `KeyError("Non-existent config key: {full_key}")`. -/
  | nonExistentKey (fullKey : String)
  /-- `ValueError("Type mismatch ({type_b} vs. {type_a}) with values
  ({value_b} vs. {value_a}) for config key: {full_key}")`. -/
  | typeMismatch (typeB typeA : String) (valueB valueA : Value) (fullKey : String)
  /-- An `assert` failure (`AssertionError`) with its message. -/
  | assertionFailed (msg : String)
  /-- A `TypeError` (e.g. `subkey in d` where `d` is not a container). -/
  | typeError (msg : String)

/-! ## The literal parser (`ast.literal_eval`)

`_decode_cfg_value` feeds strings to `ast.literal_eval` and catches
`ValueError`/`SyntaxError`.  The stdlib parser is external to the repository;
it is embedded as a total recursive-descent parser over the strict literal
grammar restricted to the modelled universe (ints with optional sign,
`True`/`False`/`None`, single- or double-quoted strings without escapes,
lists, tuples, dicts with string keys, arbitrarily nested, with whitespace).
`none` stands for the caught `ValueError`/`SyntaxError` failure modes.
Floats, complex numbers, sets, escapes and other exotica are outside the
modelled universe and parse as `none` here. -/

/-- Whitespace skipped between tokens. -/
def isSpaceChar (c : Char) : Bool :=
  c = ' ' || c = '\t' || c = '\n' || c = '\r'

def dropWs : List Char → List Char
  | [] => []
  | c :: cs => if isSpaceChar c then dropWs cs else c :: cs

def isIdentChar (c : Char) : Bool :=
  c.isAlphanum || c = '_'

/-- Strip an expected keyword; succeeds only at an identifier boundary. -/
def stripKeywordChars : List Char → List Char → Option (List Char)
  | [], [] => some []
  | [], c :: cs => if isIdentChar c then none else some (c :: cs)
  | _ :: _, [] => none
  | k :: ks, c :: cs => if c = k then stripKeywordChars ks cs else none

/-- Take a maximal run of decimal digits. -/
def takeDigits : List Char → List Char × List Char
  | [] => ([], [])
  | c :: cs =>
    if c.isDigit then
      let (ds, r) := takeDigits cs
      (c :: ds, r)
    else ([], c :: cs)

def digitsToNat (ds : List Char) : Nat :=
  ds.foldl (fun a c => a * 10 + (c.toNat - 48)) 0

/-- Read a quoted string's body up to the closing quote `q`; no escapes. -/
def takeStrBody (q : Char) : List Char → Option (List Char × List Char)
  | [] => none
  | c :: cs =>
    if c = q then some ([], cs)
    else if c = '\\' then none
    else
      match takeStrBody q cs with
      | some (body, r) => some (c :: body, r)
      | none => none

mutual
/-- One literal (after leading whitespace). -/
def parseValF : Nat → List Char → Option (Value × List Char)
  | 0, _ => none
  | f + 1, cs0 =>
    match dropWs cs0 with
    | [] => none
    | c :: rest =>
      if c = '\'' || c = '"' then
        match takeStrBody c rest with
        | some (body, r) => some (.vstr (String.mk body), r)
        | none => none
      else if c = '[' then
        match dropWs rest with
        | ']' :: r => some (.vlist [], r)
        | r1 => match parseElemsF f ']' r1 [] with
                | some (xs, r) => some (.vlist xs, r)
                | none => none
      else if c = '(' then
        match dropWs rest with
        | ')' :: r => some (.vtuple [], r)
        | r1 =>
          match parseValF f r1 with
          | none => none
          | some (v, r2) =>
            match dropWs r2 with
            | ')' :: r3 => some (v, r3)
            | ',' :: r3 =>
              (match dropWs r3 with
               | ')' :: r4 => some (.vtuple [v], r4)
               | r4 => match parseElemsF f ')' r4 [v] with
                       | some (xs, r) => some (.vtuple xs, r)
                       | none => none)
            | _ => none
      else if c = '\x7b' then
        match dropWs rest with
        | '\x7d' :: r => some (.vdict [], r)
        | r1 => match parseItemsF f r1 [] with
                | some (es, r) => some (.vdict es, r)
                | none => none
      else if c = '-' || c = '+' then
        match takeDigits (dropWs rest) with
        | ([], _) => none
        | (ds, r) =>
          if c = '-' then some (.vint (-(digitsToNat ds : Int)), r)
          else some (.vint (digitsToNat ds : Int), r)
      else if c.isDigit then
        match takeDigits (c :: rest) with
        | (ds, r) => some (.vint (digitsToNat ds : Int), r)
      else
        match stripKeywordChars ['T','r','u','e'] (c :: rest) with
        | some r => some (.vbool true, r)
        | none =>
          match stripKeywordChars ['F','a','l','s','e'] (c :: rest) with
          | some r => some (.vbool false, r)
          | none =>
            match stripKeywordChars ['N','o','n','e'] (c :: rest) with
            | some r => some (.vnone, r)
            | none => none

/-- Comma-separated elements after the first delimiter, until `close`. -/
def parseElemsF : Nat → Char → List Char → List Value → Option (List Value × List Char)
  | 0, _, _, _ => none
  | f + 1, close, cs, acc =>
    match parseValF f cs with
    | none => none
    | some (v, r) =>
      match dropWs r with
      | [] => none
      | c :: r2 =>
        if c = close then some (acc ++ [v], r2)
        else if c = ',' then
          match dropWs r2 with
          | d :: r3 =>
            if d = close then some (acc ++ [v], r3)
            else parseElemsF f close (d :: r3) (acc ++ [v])
          | [] => none
        else none

/-- Comma-separated `'key': value` items of a dict display, until `\x7d`. -/
def parseItemsF : Nat → List Char → Entries → Option (Entries × List Char)
  | 0, _, _ => none
  | f + 1, cs, acc =>
    match dropWs cs with
    | [] => none
    | q :: r0 =>
      if q = '\'' || q = '"' then
        match takeStrBody q r0 with
        | none => none
        | some (kbody, r1) =>
          match dropWs r1 with
          | ':' :: r2 =>
            (match parseValF f r2 with
             | none => none
             | some (v, r3) =>
               match dropWs r3 with
               | [] => none
               | c :: r4 =>
                 if c = '\x7d' then some (acc ++ [(String.mk kbody, v)], r4)
                 else if c = ',' then
                   match dropWs r4 with
                   | d :: r5 =>
                     if d = '\x7d' then some (acc ++ [(String.mk kbody, v)], r5)
                     else parseItemsF f (d :: r5) (acc ++ [(String.mk kbody, v)])
                   | [] => none
                 else none)
          | _ => none
      else none
end

/-- Leading-whitespace strip of `ast.literal_eval` (it lstrips the input). -/
def lstripWs (cs : List Char) : List Char := dropWs cs

/-- `ast.literal_eval` on a string: `some` the parsed literal, `none` for the
`ValueError`/`SyntaxError` failure modes the caller catches. -/
def literalEval (s : String) : Option Value :=
  match parseValF (s.length + 1) (lstripWs s.data) with
  | some (v, rest) => if dropWs rest = [] then some v else none
  | none => none

example : literalEval "123" = some (.vint 123) := by rfl
example : literalEval "abc" = none := by rfl
example : literalEval "foo/bar" = none := by rfl
example : literalEval "[1, 2]" = some (.vlist [.vint 1, .vint 2]) := by rfl
example : literalEval "(1, 2)" = some (.vtuple [.vint 1, .vint 2]) := by rfl
example : literalEval "'foo'" = some (.vstr "foo") := by rfl
example : literalEval "True" = some (.vbool true) := by rfl
example : literalEval "None" = some Value.vnone := by rfl
example : literalEval "-7" = some (.vint (-7)) := by rfl
example : literalEval "\x7b'a': 1\x7d" = some (.vdict [("a", .vint 1)]) := by rfl

/-! ## Value Codec and Type Reconciler -/

/-- `_decode_cfg_value(v)` (config.py 232-262).  A dict (plain or `CfgNode`)
is rebuilt as `CfgNode(v)`: same entries, fresh default metadata.  Any other
non-string passes through.  A string goes to `ast.literal_eval`; the
`ValueError`/`SyntaxError` failure modes are caught and the original string
returned. -/
def decode_cfg_value (v : Value) : Value :=
  match v with
  | .vdict es => .vnode es metaDefault
  | .vnode es _ => .vnode es metaDefault
  | .vstr s =>
    match literalEval s with
    | some v' => v'
    | none => .vstr s
  | v => v

/-- `_check_and_coerce_cfg_value_type(value_a, value_b, key, full_key)`
(config.py 265-290).  Exact type match passes the candidate through; the
coercion chain then tries, in source order: `np.ndarray` targets (vacuous
here — numpy arrays are outside the modelled universe), string targets
(`str(value_a)`), tuple-candidate/list-target, list-candidate/tuple-target;
otherwise the `ValueError` carrying both types, both values and the full
key. -/
def check_and_coerce_cfg_value_type (value_a value_b : Value)
    (key full_key : String) : Except PyErr Value :=
  if pyTypeName value_a = pyTypeName value_b then .ok value_a
  else if value_b.isStr then .ok (.vstr (pyStr value_a))
  else
    match value_a, value_b with
    | .vtuple xs, .vlist _ => .ok (.vlist xs)
    | .vlist xs, .vtuple _ => .ok (.vtuple xs)
    | a, b => .error (.typeMismatch (pyTypeName b) (pyTypeName a) b a full_key)

/-! ## Tree Node: attribute access, item access, mutability -/

/-- The keys of `self.__dict__` after `CfgNode.__init__`: the three metadata
attribute names (`CfgNode.IMMUTABLE`, `CfgNode.DEPRECATED_KEYS`,
`CfgNode.RENAMED_KEYS`). -/
def dictAttrNames : List String :=
  ["__immutable__", "__deprecated_keys__", "__renamed_keys__"]

/-- What a public attribute read returns: a configuration value from the
mapping, one of the three metadata objects from `self.__dict__`, or an
attribute of the `CfgNode` class itself — a bound method or class constant
found by Python's normal attribute lookup before `__getattr__` ever runs.
The metadata and class-attribute objects lie outside the `Value` universe,
so only the hit is recorded. -/
inductive AttrRead where
  | value (v : Value)
  | metaObj (name : String)
  | classAttr (name : String)

/-- `CfgNode.__getattr__(name)` (config.py 51-57): `self.__dict__` first,
then the mapping, else `AttributeError(name)`.  In Python this hook runs
only after the normal attribute lookup has failed; the public read is
`CfgNode_attr_read` below. -/
def CfgNode_getattr (es : Entries) (m : Meta) (name : String) :
    Except PyErr AttrRead :=
  if name ∈ dictAttrNames then .ok (.metaObj name)
  else
    match lookupE es name with
    | some v => .ok (.value v)
    | none => .error (.attributeNotFound name)

/-- The attribute names of the `CfgNode` class namespace in CPython: the
class's own definitions (config.py 25-181) plus what it inherits from
`dict` and `object`.  The exact dunder inventory varies slightly across
CPython versions; the theorems below only need that this list covers the
class namespace and is disjoint from the instance `__dict__` names. -/
def classAttrNames : List String :=
  ["IMMUTABLE", "DEPRECATED_KEYS", "RENAMED_KEYS",
   "__init__", "__getattr__", "__setattr__",
   "dump", "merge_from_file", "merge_from_other_cfg", "merge_from_list",
   "freeze", "defrost", "is_frozen", "_immutable", "clone",
   "register_deprecated_key", "register_renamed_key",
   "key_is_deprecated", "key_is_renamed", "raise_key_rename_error",
   "keys", "values", "items", "get", "pop", "popitem", "setdefault",
   "update", "clear", "copy", "fromkeys",
   "__contains__", "__getitem__", "__setitem__", "__delitem__", "__len__",
   "__iter__", "__reversed__", "__eq__", "__ne__", "__lt__", "__le__",
   "__gt__", "__ge__", "__or__", "__ror__", "__ior__",
   "__repr__", "__str__", "__doc__", "__class__", "__dict__",
   "__module__", "__weakref__", "__hash__", "__sizeof__", "__format__",
   "__reduce__", "__reduce_ex__", "__dir__", "__delattr__",
   "__getattribute__", "__init_subclass__", "__subclasshook__", "__new__",
   "__class_getitem__"]

/-- The public attribute read `n.name` (`object.__getattribute__` followed
by the `__getattr__` fallback): the instance `__dict__` holds exactly the
three metadata names, the class namespace supplies bound methods and class
constants, and only when both fail does `CfgNode.__getattr__` run and
consult the mapping.  (Python looks type data descriptors up before the
instance `__dict__`; here the two namespaces are disjoint, so the order of
the first two tests is immaterial.) -/
def CfgNode_attr_read (es : Entries) (m : Meta) (name : String) :
    Except PyErr AttrRead :=
  if name ∈ dictAttrNames then .ok (.metaObj name)
  else if name ∈ classAttrNames then .ok (.classAttr name)
  else CfgNode_getattr es m name

/-- What `CfgNode.__setattr__` does on success: the node with the value
stored in the mapping (`self[name] = value`), or a write into the
`self.__dict__` metadata namespace (`name` was one of the three metadata
names; the stored object then replaces a metadata object — a path no claim
exercises, recorded as the hit only). -/
inductive SetAttrDone where
  | updated (es : Entries) (m : Meta)
  | metaWritten (name : String)

/-- `CfgNode.__setattr__(name, value)` (config.py 59-70): frozen nodes always
raise the `AttributeError` naming the attempted key and value; otherwise the
write lands in `self.__dict__` when the name is a metadata name, in the
mapping otherwise. -/
def CfgNode_setattr (es : Entries) (m : Meta) (name : String) (value : Value) :
    Except PyErr SetAttrDone :=
  if m.immutable then .error (.immutableWrite name value)
  else if name ∈ dictAttrNames then .ok (.metaWritten name)
  else .ok (.updated (setEntry es name value) m)

/-- Key-style assignment `node[k] = v`: `CfgNode` does not override
`dict.__setitem__`, so this is the inherited dict write — no immutability
check, total. -/
def CfgNode_setitem (es : Entries) (m : Meta) (k : String) (v : Value) :
    Entries × Meta :=
  (setEntry es k v, m)

mutual
/-- `CfgNode._immutable(is_immutable)` (config.py 120-131): set the flag,
then recurse into every value of `self.__dict__` and of the mapping that is
itself a `CfgNode`.  The `__dict__` of the model holds the three metadata
objects, none a `CfgNode`, so that loop sets nothing; values nested inside
lists or tuples are not `CfgNode` instances themselves and are not
entered. -/
def setImmutable : Value → Bool → Value
  | .vnode es m, b => .vnode (setImmutableEntries es b) { m with immutable := b }
  | v, _ => v

def setImmutableEntries : Entries → Bool → Entries
  | [], _ => []
  | (k, v) :: es, b => (k, setImmutable v b) :: setImmutableEntries es b
end

/-- `CfgNode.freeze()`. -/
def CfgNode_freeze (v : Value) : Value := setImmutable v true

/-- `CfgNode.defrost()`. -/
def CfgNode_defrost (v : Value) : Value := setImmutable v false

/-- `CfgNode.is_frozen()`. -/
def CfgNode_is_frozen (m : Meta) : Bool := m.immutable

/-! ## Key Policy Registry -/

/-- `CfgNode.key_is_deprecated(full_key)` (config.py 159-164); the warning it
logs is outside the model. -/
def key_is_deprecated (root : Meta) (full_key : String) : Bool :=
  root.deprecated_keys.contains full_key

/-- Lookup in `self.__dict__[RENAMED_KEYS]`. -/
def lookupRenamed (root : Meta) (full_key : String) : Option RenamedVal :=
  match root.renamed_keys.find? (fun p => p.1 = full_key) with
  | some p => some p.2
  | none => none

/-- `CfgNode.key_is_renamed(full_key)` (config.py 166-168). -/
def key_is_renamed (root : Meta) (full_key : String) : Bool :=
  (lookupRenamed root full_key).isSome

/-- The `KeyError` built by `CfgNode.raise_key_rename_error(full_key)`
(config.py 170-181) from the registered entry: old key, new key, optional
instruction message. -/
def renameErrorOf (full_key : String) : RenamedVal → PyErr
  | .plain newKey => .keyRenamed full_key newKey none
  | .withMsg newKey msg => .keyRenamed full_key newKey (some msg)

/-! ## Merge Engine -/

/-- `full_key = ".".join(stack) + "." + k if stack is not None else k`
(config.py 207). -/
def fullKeyOf : Option (List String) → String → String
  | none, k => k
  | some stack, k => String.intercalate "." stack ++ "." ++ k

/-- `stack_push = [k] if stack is None else stack + [k]` (config.py 224). -/
def stackPush : Option (List String) → String → Option (List String)
  | none, k => some [k]
  | some stack, k => some (stack ++ [k])

/-- Result of a merge step on a target entry list.  `err` carries the target
as mutated by the keys already processed when the exception was raised —
merging is in-place and not transactional.  `fuelOut` is the fuel artifact of
the embedding; the wrapper's fuel is proved sufficient, so it never arises
from the public entry points. -/
inductive MRes where
  | ok (b : Entries)
  | err (b : Entries) (e : PyErr)
  | fuelOut

/-- The key loop of `_merge_a_into_b(a, b, root, stack)` (config.py 206-229),
processing the overlay's entries in order against target entries `bs`.
`deepcopy(v_)` is the identity on the pure values of the embedding. -/
def mergeEntriesF : Nat → Entries → Entries → Meta → Option (List String) → MRes
  | 0, _, _, _, _ => .fuelOut
  | fuel + 1, as_, bs, root, stack =>
    match as_ with
    | [] => .ok bs
    | (k, v0) :: rest =>
      let full_key := fullKeyOf stack k
      match lookupE bs k with
      | none =>
        if key_is_deprecated root full_key then
          mergeEntriesF fuel rest bs root stack
        else
          match lookupRenamed root full_key with
          | some rv => .err bs (renameErrorOf full_key rv)
          | none => .err bs (.nonExistentKey full_key)
      | some bv =>
        match check_and_coerce_cfg_value_type (decode_cfg_value v0) bv k full_key with
        | .error e => .err bs e
        | .ok v2 =>
          match v2 with
          | .vnode aes _ =>
            match bv with
            | .vnode bes bm =>
              match mergeEntriesF fuel aes bes root (stackPush stack k) with
              | .ok bes2 => mergeEntriesF fuel rest (setEntry bs k (.vnode bes2 bm)) root stack
              | .err bes2 e => .err (setEntry bs k (.vnode bes2 bm)) e
              | .fuelOut => .fuelOut
            | _ => .err bs (.assertionFailed "`b` (cur type) must be an instance of CfgNode")
          | _ => mergeEntriesF fuel rest (setEntry bs k v2) root stack

/-- Result of a whole-tree merge: the merged target node, the partially
mutated target at exception time, or the fuel artifact. -/
inductive MResT where
  | ok (b : Value)
  | err (b : Value) (e : PyErr)
  | fuelOut

/-- `_merge_a_into_b(a, b, root)` as called from the public entry points
(`merge_from_other_cfg`, `merge_from_file`: config.py 76-84), with the entry
asserts that both arguments are `CfgNode`s.  The target's metadata is never
touched by the merge.  `root` enters only through its registries, so it is
passed as its metadata. -/
def merge_a_into_b (a b : Value) (root : Meta) : MResT :=
  match a, b with
  | .vnode aes _, .vnode bes bm =>
    (match mergeEntriesF (vsizeEntries aes) aes bes root none with
     | .ok bes2 => .ok (.vnode bes2 bm)
     | .err bes2 e => .err (.vnode bes2 bm) e
     | .fuelOut => .fuelOut)
  | .vnode _ _, b => .err b (.assertionFailed "`b` (cur type) must be an instance of CfgNode")
  | _, b => .err b (.assertionFailed "`a` (cur type) must be an instance of CfgNode")

example :
    merge_a_into_b (.vnode [("A", .vnode [("B", .vint 5)] metaDefault)] metaDefault)
      (.vnode [("A", .vnode [("B", .vint 1), ("C", .vint 2)] metaDefault)] metaDefault)
      metaDefault =
    .ok (.vnode [("A", .vnode [("B", .vint 5), ("C", .vint 2)] metaDefault)] metaDefault) := by
  rfl

/-! ## Override-list merge (`CfgNode.merge_from_list`) -/

/-- Result of an override-list merge; `err` carries the target as mutated by
the pairs already applied when the exception was raised. -/
inductive MResL where
  | ok (b : Entries)
  | err (b : Entries) (e : PyErr)

/-- The per-pair walk of `merge_from_list` (config.py 97-106): follow all but
the last dotted segment through nested containers (each must contain the
segment — `assert subkey in d` — and be a dict to be walkable at all), then
decode, reconcile against and overwrite the final leaf.  The walk mutates
the nested container in place, modelled by rebuilding along the path.
Walking into a non-dict leaf always raises in Python (a `TypeError` from
`in`/indexing, or the assert when a string/sequence membership test fails);
the model raises a single `TypeError` for that corner — no claim depends on
which exception a failed walk into a non-dict raises. -/
def mergeListPath (segs : List String) (full_key : String) (es : Entries)
    (v : Value) : Except PyErr Entries :=
  match segs with
  | [] => .error (.typeError "unreachable: String.splitOn returns a nonempty list")
  | [subkey] =>
    match lookupE es subkey with
    | none => .error (.assertionFailed ("Non-existent key: " ++ full_key))
    | some bv =>
      match check_and_coerce_cfg_value_type (decode_cfg_value v) bv subkey full_key with
      | .error e => .error e
      | .ok v2 => .ok (setEntry es subkey v2)
  | subkey :: rest =>
    match lookupE es subkey with
    | none => .error (.assertionFailed ("Non-existent key: " ++ full_key))
    | some (.vnode es2 m2) =>
      (match mergeListPath rest full_key es2 v with
       | .error e => .error e
       | .ok es3 => .ok (setEntry es subkey (.vnode es3 m2)))
    | some (.vdict es2) =>
      (match mergeListPath rest full_key es2 v with
       | .error e => .error e
       | .ok es3 => .ok (setEntry es subkey (.vdict es3)))
    | some bv =>
      .error (.typeError ("argument of type '" ++ pyTypeName bv ++ "' is not iterable"))

/-- `full_key.split(".")`: split at every dot; no dot gives the single
segment, leading/trailing/adjacent dots give empty segments, as in Python. -/
def pySplitDotAux : List Char → List Char → List String
  | [], acc => [String.mk acc.reverse]
  | c :: cs, acc =>
    if c = '.' then String.mk acc.reverse :: pySplitDotAux cs []
    else pySplitDotAux cs (c :: acc)

def pySplitDot (s : String) : List String := pySplitDotAux s.data []

/-- `CfgNode.merge_from_list(cfg_list)` (config.py 86-106) over the
pre-paired `(full_key, raw value)` sequence (the source asserts even length
and strides by two; the pairing is built into the input type here).  For each
pair in order: a deprecated key is skipped, a renamed key raises the rename
`KeyError` immediately — before any existence check — and otherwise the
dotted path is walked and the leaf overwritten. -/
def merge_from_list (es : Entries) (root : Meta) :
    List (String × Value) → MResL
  | [] => .ok es
  | (full_key, v) :: rest =>
    if key_is_deprecated root full_key then merge_from_list es root rest
    else
      match lookupRenamed root full_key with
      | some rv => .err es (renameErrorOf full_key rv)
      | none =>
        match mergeListPath (pySplitDot full_key) full_key es v with
        | .error e => .err es e
        | .ok es2 => merge_from_list es2 root rest

example :
    merge_from_list [("A", .vnode [("B", .vint 1)] metaDefault)] metaDefault
      [("A.B", .vstr "7")] =
    .ok [("A", .vnode [("B", .vint 7)] metaDefault)] := by rfl

/-! ## Claims C5-C8: Value Codec and Type Reconciler -/

/-- **C5.** `decode(raw)` is total (a Lean function by construction: both
`literal_eval` failure modes are the `none` branch and fall through) and
behaves case-wise as claimed: a mapping (plain dict or `CfgNode`) becomes a
Tree Node, a non-string non-mapping passes through unchanged, and a string
that fails the strict literal parse is returned unchanged. -/
theorem decode_cfg_value_total_spec :
    (∀ es : Entries, decode_cfg_value (.vdict es) = .vnode es metaDefault) ∧
    (∀ (es : Entries) (m : Meta),
        decode_cfg_value (.vnode es m) = .vnode es metaDefault) ∧
    (∀ v : Value, v.isMapping = false → v.isStr = false →
        decode_cfg_value v = v) ∧
    (∀ s : String, literalEval s = none → decode_cfg_value (.vstr s) = .vstr s) := by
  refine ⟨fun es => rfl, fun es m => rfl, ?_, ?_⟩
  · intro v hm hs
    cases v <;> simp_all [Value.isMapping, Value.isStr, decode_cfg_value]
  · intro s h
    simp [decode_cfg_value, h]

/-- Witness for C5: the theorem applied at a mapping, a boolean, and the
unparsable string `"foo/bar"`. -/
theorem decode_cfg_value_total_spec_witness :
    Value.isMapping (.vbool true) = false ∧ Value.isStr (.vbool true) = false ∧
    literalEval "foo/bar" = none ∧
    decode_cfg_value (.vdict [("A", .vint 1)]) = .vnode [("A", .vint 1)] metaDefault ∧
    decode_cfg_value (.vbool true) = .vbool true ∧
    decode_cfg_value (.vstr "foo/bar") = .vstr "foo/bar" :=
  ⟨rfl, rfl, rfl, decode_cfg_value_total_spec.1 _,
    decode_cfg_value_total_spec.2.2.1 _ rfl rfl,
    decode_cfg_value_total_spec.2.2.2 _ rfl⟩

/-- **C6.** Overlay raw string `"123"` against a target leaf `"abc"`: decode
yields the integer `123`, reconciliation coerces it back to the string
`"123"`, and the end-to-end merge leaves the string `"123"` (not the
integer) at the leaf. -/
theorem decode_then_coerce_numeric_string :
    decode_cfg_value (.vstr "123") = .vint 123 ∧
    check_and_coerce_cfg_value_type (.vint 123) (.vstr "abc") "K" "K" =
      .ok (.vstr "123") ∧
    merge_a_into_b (.vnode [("K", .vstr "123")] metaDefault)
      (.vnode [("K", .vstr "abc")] metaDefault) metaDefault =
      .ok (.vnode [("K", .vstr "123")] metaDefault) := by
  exact ⟨rfl, rfl, rfl⟩

/-- **C7.** Reconciliation interchanges fixed tuples and lists: a list
candidate against a tuple-typed existing value is coerced to a tuple (with
the claim's concrete instance `[3, 4]` vs `(1, 2)` giving `(3, 4)`), and a
tuple candidate against a list-typed existing value is coerced to a list. -/
theorem coerce_tuple_list_interchange :
    (∀ (xs ys : List Value) (key full_key : String),
        check_and_coerce_cfg_value_type (.vlist xs) (.vtuple ys) key full_key =
          .ok (.vtuple xs)) ∧
    (∀ (xs ys : List Value) (key full_key : String),
        check_and_coerce_cfg_value_type (.vtuple xs) (.vlist ys) key full_key =
          .ok (.vlist xs)) ∧
    check_and_coerce_cfg_value_type (.vlist [.vint 3, .vint 4])
      (.vtuple [.vint 1, .vint 2]) "K" "K" = .ok (.vtuple [.vint 3, .vint 4]) := by
  refine ⟨?_, ?_, rfl⟩ <;>
    · intro xs ys key full_key
      simp [check_and_coerce_cfg_value_type, pyTypeName, Value.isStr]

/-- **C8.** Merging `{"A": {"B": 5}}` into `{"A": {"B": 1, "C": 2}}`
overwrites the nested `B` and leaves the sibling `C` untouched. -/
theorem merge_nested_overwrite_keeps_sibling :
    merge_a_into_b (.vnode [("A", .vnode [("B", .vint 5)] metaDefault)] metaDefault)
      (.vnode [("A", .vnode [("B", .vint 1), ("C", .vint 2)] metaDefault)] metaDefault)
      metaDefault =
    .ok (.vnode [("A", .vnode [("B", .vint 5), ("C", .vint 2)] metaDefault)] metaDefault) := by
  rfl

/-! ## Claims C10 and C1: attribute access and the freeze lifecycle -/

/-- **C10 counterexample.** The claim as stated fails for names shadowed by
class attributes: with `"keys"` stored in the mapping, the public attribute
read returns the bound `dict.keys` method — not the mapping entry — and for
`"clone"`, present in neither the mapping nor the instance `__dict__`, it
returns the bound `CfgNode.clone` method instead of raising
`AttributeError` (`__getattr__` never runs). -/
theorem attr_read_shadowed_counterexample :
    CfgNode_attr_read [("keys", .vint 1)] metaDefault "keys" =
      .ok (.classAttr "keys") ∧
    lookupE [("keys", Value.vint 1)] "keys" = some (.vint 1) ∧
    (.ok (.classAttr "keys") : Except PyErr AttrRead) ≠
      .ok (.value (.vint 1)) ∧
    CfgNode_attr_read [] metaDefault "clone" = .ok (.classAttr "clone") ∧
    (∀ e : PyErr,
      (.ok (.classAttr "clone") : Except PyErr AttrRead) ≠ .error e) := by
  exact ⟨rfl, rfl, by simp, rfl, fun e => by simp⟩

/-- **C10 (amended).** Attribute-style and key-style access share the
mapping, except where the class namespace shadows the read: on an unfrozen
node, for a name that is not one of the three `__dict__` metadata names,
attribute *assignment* always stores the value as the mapping entry (so a
subsequent `n[s]` lookup returns it — `__setattr__` intercepts every
assignment, class-shadowed names included); attribute *read* of a name that
is also no attribute of the `CfgNode` class returns the mapping entry when
present and raises `AttributeError(name)` exactly when the name is in
neither namespace; and the read of a class-attribute name returns the bound
method or class constant, never consulting the mapping. -/
theorem attr_and_item_share_storage_unshadowed (es : Entries) (m : Meta)
    (s : String) (v : Value) (hmeta : s ∉ dictAttrNames)
    (hmut : m.immutable = false) :
    (CfgNode_setattr es m s v = .ok (.updated (setEntry es s v) m) ∧
      lookupE (setEntry es s v) s = some v) ∧
    (s ∉ classAttrNames →
      (∀ w, lookupE es s = some w →
        CfgNode_attr_read es m s = .ok (.value w)) ∧
      (lookupE es s = none →
        CfgNode_attr_read es m s = .error (.attributeNotFound s))) ∧
    (s ∈ classAttrNames → CfgNode_attr_read es m s = .ok (.classAttr s)) := by
  refine ⟨⟨?_, lookupE_setEntry_self es s v⟩, ?_, ?_⟩
  · simp [CfgNode_setattr, hmut, hmeta]
  · intro hclass
    constructor
    · intro w hw
      simp [CfgNode_attr_read, CfgNode_getattr, hmeta, hclass, hw]
    · intro hw
      simp [CfgNode_attr_read, CfgNode_getattr, hmeta, hclass, hw]
  · intro hclass
    simp [CfgNode_attr_read, hmeta, hclass]

/-- Witness for C10 (amended) at a concrete unfrozen node: an unshadowed
name round-trips through the mapping and errors when absent; `"keys"` is
read as the class attribute even while stored in the mapping. -/
theorem attr_and_item_share_storage_unshadowed_witness :
    ("B" ∉ dictAttrNames) ∧ ("B" ∉ classAttrNames) ∧
    (metaDefault.immutable = false) ∧
    (CfgNode_setattr [("A", .vint 1)] metaDefault "B" (.vint 2) =
        .ok (.updated [("A", .vint 1), ("B", .vint 2)] metaDefault) ∧
      lookupE [("A", .vint 1), ("B", .vint 2)] "B" = some (.vint 2)) ∧
    (CfgNode_attr_read [("A", .vint 1)] metaDefault "A" =
      .ok (.value (.vint 1))) ∧
    (CfgNode_attr_read [("A", .vint 1)] metaDefault "B" =
      .error (.attributeNotFound "B")) ∧
    (CfgNode_attr_read [("keys", .vint 1)] metaDefault "keys" =
      .ok (.classAttr "keys")) := by
  have hmeta : "B" ∉ dictAttrNames := by decide
  have hclass : "B" ∉ classAttrNames := by decide
  have h := attr_and_item_share_storage_unshadowed [("A", .vint 1)] metaDefault
    "B" (.vint 2) hmeta rfl
  have h2 := attr_and_item_share_storage_unshadowed [("A", .vint 1)] metaDefault
    "A" (.vint 2) (by decide) rfl
  have h3 := attr_and_item_share_storage_unshadowed [("keys", .vint 1)]
    metaDefault "keys" (.vint 2) (by decide) rfl
  exact ⟨hmeta, hclass, rfl, h.1,
    (h2.2.1 (by decide)).1 (.vint 1) rfl,
    (h.2.1 hclass).2 rfl,
    h3.2.2 (by decide)⟩

/-- The `CfgNode`s that `CfgNode._immutable` reaches from a value: the value
itself when it is a `CfgNode`, and recursively every `CfgNode` stored as an
entry value of a reached node.  (Nodes buried inside list or tuple values are
not reached — the source recurses only into values that are themselves
`CfgNode` instances.)  `NodeIn es' m' v` says the node with entries `es'` and
metadata `m'` is reached from `v`. -/
inductive NodeIn : Entries → Meta → Value → Prop where
  | here (es : Entries) (m : Meta) : NodeIn es m (.vnode es m)
  | child (es : Entries) (m : Meta) (k : String) (v : Value)
      (es' : Entries) (m' : Meta) :
      (k, v) ∈ es → NodeIn es' m' v → NodeIn es' m' (.vnode es m)

/-- Membership in `setImmutableEntries` comes from membership before. -/
theorem mem_setImmutableEntries (es : Entries) (b : Bool) (k : String) (v : Value)
    (h : (k, v) ∈ setImmutableEntries es b) :
    ∃ v0, (k, v0) ∈ es ∧ v = setImmutable v0 b := by
  induction es with
  | nil => simp [setImmutableEntries] at h
  | cons p rest ih =>
    obtain ⟨k0, v0⟩ := p
    simp only [setImmutableEntries, List.mem_cons, Prod.mk.injEq] at h
    rcases h with ⟨hk, hv⟩ | h
    · exact ⟨v0, by simp [hk], hv ▸ rfl⟩
    · obtain ⟨w, hw, hv⟩ := ih h
      exact ⟨w, List.mem_cons_of_mem _ hw, hv⟩

/-- Every node reached from `setImmutable v b` carries flag `b`. -/
theorem nodeIn_setImmutable_flag :
    ∀ (w : Value) (es' : Entries) (m' : Meta), NodeIn es' m' w →
      ∀ (v : Value) (b : Bool), w = setImmutable v b → m'.immutable = b := by
  intro w es' m' h
  induction h with
  | here es m =>
    intro v b hw
    cases v <;> simp [setImmutable] at hw
    · exact hw.2 ▸ rfl
  | child es m k v es1 m1 hmem hin ih =>
    intro T b hw
    cases T <;> simp [setImmutable] at hw
    obtain ⟨hes, hm⟩ := hw
    subst hes
    obtain ⟨v0, hv0, hveq⟩ := mem_setImmutableEntries _ b k v hmem
    exact ih v0 b hveq

/-- **C1 (amended).** After `freeze()`, every node the freeze reaches (the
node itself and every `CfgNode` nested at any depth through entry values)
carries the immutable flag, and every *attribute-style* write on any of them
fails with the `AttributeError` naming the attempted key and value; after
`defrost()` the flag is cleared everywhere and attribute writes succeed
again.  Key-style assignment, by contrast, is the inherited, unguarded
`dict.__setitem__`: it always stores the value, frozen or not. -/
theorem freeze_blocks_attr_writes_only :
    (∀ (T : Value) (es' : Entries) (m' : Meta) (name : String) (value : Value),
        NodeIn es' m' (CfgNode_freeze T) →
        CfgNode_is_frozen m' = true ∧
        CfgNode_setattr es' m' name value = .error (.immutableWrite name value)) ∧
    (∀ (T : Value) (es' : Entries) (m' : Meta) (name : String) (value : Value),
        NodeIn es' m' (CfgNode_defrost T) →
        CfgNode_is_frozen m' = false ∧
        ∃ r, CfgNode_setattr es' m' name value = .ok r) ∧
    (∀ (es : Entries) (m : Meta) (k : String) (v : Value),
        CfgNode_setitem es m k v = (setEntry es k v, m)) := by
  refine ⟨?_, ?_, fun es m k v => rfl⟩
  · intro T es' m' name value h
    have hf : m'.immutable = true :=
      nodeIn_setImmutable_flag _ _ _ h T true rfl
    exact ⟨hf, by simp [CfgNode_setattr, hf]⟩
  · intro T es' m' name value h
    have hf : m'.immutable = false :=
      nodeIn_setImmutable_flag _ _ _ h T false rfl
    refine ⟨hf, ?_⟩
    by_cases hn : name ∈ dictAttrNames
    · exact ⟨.metaWritten name, by simp [CfgNode_setattr, hf, hn]⟩
    · exact ⟨.updated (setEntry es' name value) m', by simp [CfgNode_setattr, hf, hn]⟩

/-- Witness for C1 (amended): a two-level tree; the attribute write on the
frozen nested node errors naming key and value, and succeeds after
defrost. -/
theorem freeze_blocks_attr_writes_only_witness :
    CfgNode_setattr [] ⟨true, [], []⟩ "X" (.vint 5) =
      .error (.immutableWrite "X" (.vint 5)) ∧
    (∃ r, CfgNode_setattr [] metaDefault "X" (.vint 5) = .ok r) := by
  constructor
  · exact (freeze_blocks_attr_writes_only.1
      (.vnode [("S", .vnode [] metaDefault)] metaDefault) [] ⟨true, [], []⟩
      "X" (.vint 5)
      (NodeIn.child _ _ "S" (.vnode [] ⟨true, [], []⟩) _ _
        (List.Mem.head _) (NodeIn.here _ _))).2
  · exact (freeze_blocks_attr_writes_only.2.1
      (.vnode [("S", .vnode [] metaDefault)] metaDefault) [] metaDefault
      "X" (.vint 5)
      (NodeIn.child _ _ "S" (.vnode [] metaDefault) _ _
        (List.Mem.head _) (NodeIn.here _ _))).2

/-- **C1 counterexample.** The claim as stated is false for key-style
assignment: on a frozen node, `node[k] = v` goes through the inherited
`dict.__setitem__` with no immutability check — it raises nothing and
changes the node. -/
theorem frozen_item_write_succeeds_counterexample :
    CfgNode_freeze (.vnode [("A", .vint 1)] metaDefault) =
      .vnode [("A", .vint 1)] ⟨true, [], []⟩ ∧
    CfgNode_setitem [("A", .vint 1)] ⟨true, [], []⟩ "A" (.vint 2) =
      ([("A", .vint 2)], ⟨true, [], []⟩) ∧
    ([("A", Value.vint 2)] : Entries) ≠ [("A", Value.vint 1)] := by
  refine ⟨rfl, rfl, by simp⟩

/-! ## Claim C2: renamed keys -/

/-- **C2 counterexample.** A tree merge whose overlay key is registered as
renamed on the root but *present* in the target succeeds and overwrites the
key: `_merge_a_into_b` consults the rename registry only under
`if k not in b`. -/
theorem renamed_key_present_merge_ok_counterexample :
    merge_a_into_b (.vnode [("FOO", .vint 7)] metaDefault)
      (.vnode [("FOO", .vint 1)] ⟨false, [], [("FOO", .plain "BAR")]⟩)
      ⟨false, [], [("FOO", .plain "BAR")]⟩ =
    .ok (.vnode [("FOO", .vint 7)] ⟨false, [], [("FOO", .plain "BAR")]⟩) := by
  rfl

/-- **C2 (amended).** An override-list merge reaching a pair whose key is
registered renamed (and not also registered deprecated — the deprecated skip
is checked first) always fails with the rename `KeyError` naming both the
old and the new key, regardless of whether the key exists in the target.  A
tree merge raises that error only when the renamed key is *absent* from the
target (when present, the key merges normally, as the counterexample shows);
the loop-level and whole-merge statements are both given.  The last two
conjuncts record that the error built from the registry names both keys (and
the optional message). -/
theorem renamed_key_merge_errors :
    (∀ (es : Entries) (root : Meta) (fk : String) (v : Value)
        (rest : List (String × Value)) (rv : RenamedVal),
        key_is_deprecated root fk = false →
        lookupRenamed root fk = some rv →
        merge_from_list es root ((fk, v) :: rest) = .err es (renameErrorOf fk rv)) ∧
    (∀ (fuel : Nat) (k : String) (v0 : Value) (rest bs : Entries) (root : Meta)
        (stack : Option (List String)) (rv : RenamedVal),
        lookupE bs k = none →
        key_is_deprecated root (fullKeyOf stack k) = false →
        lookupRenamed root (fullKeyOf stack k) = some rv →
        mergeEntriesF (fuel + 1) ((k, v0) :: rest) bs root stack =
          .err bs (renameErrorOf (fullKeyOf stack k) rv)) ∧
    (∀ (k : String) (v0 : Value) (aes bs : Entries) (am bm root : Meta)
        (rv : RenamedVal),
        lookupE bs k = none →
        key_is_deprecated root k = false →
        lookupRenamed root k = some rv →
        merge_a_into_b (.vnode ((k, v0) :: aes) am) (.vnode bs bm) root =
          .err (.vnode bs bm) (renameErrorOf k rv)) ∧
    (∀ fk newKey, renameErrorOf fk (.plain newKey) = .keyRenamed fk newKey none) ∧
    (∀ fk newKey msg,
        renameErrorOf fk (.withMsg newKey msg) = .keyRenamed fk newKey (some msg)) := by
  have hstep : ∀ (fuel : Nat) (k : String) (v0 : Value) (rest bs : Entries)
      (root : Meta) (stack : Option (List String)) (rv : RenamedVal),
      lookupE bs k = none →
      key_is_deprecated root (fullKeyOf stack k) = false →
      lookupRenamed root (fullKeyOf stack k) = some rv →
      mergeEntriesF (fuel + 1) ((k, v0) :: rest) bs root stack =
        .err bs (renameErrorOf (fullKeyOf stack k) rv) := by
    intro fuel k v0 rest bs root stack rv hlk hdep hren
    simp [mergeEntriesF, hlk, hdep, hren]
  refine ⟨?_, hstep, ?_, fun fk n => rfl, fun fk n msg => rfl⟩
  · intro es root fk v rest rv hdep hren
    simp [merge_from_list, hdep, hren]
  · intro k v0 aes bs am bm root rv hlk hdep hren
    have hsz : vsizeEntries ((k, v0) :: aes) = (vsize v0 + vsizeEntries aes) + 1 := by
      simp [vsizeEntries]; omega
    simp only [merge_a_into_b, hsz, hstep _ k v0 aes bs root none rv hlk hdep hren]
    rfl

/-- Witness for C2 (amended): a renamed registration with and without a
message, exercised through both merge paths at concrete inputs. -/
theorem renamed_key_merge_errors_witness :
    merge_from_list [] ⟨false, [], [("OLD.KEY", .withMsg "NEW.KEY" "note")]⟩
      [("OLD.KEY", .vint 1)] =
      .err [] (.keyRenamed "OLD.KEY" "NEW.KEY" (some "note")) ∧
    merge_a_into_b (.vnode [("OLD", .vint 1)] metaDefault)
      (.vnode [] ⟨false, [], [("OLD", .plain "NEW")]⟩)
      ⟨false, [], [("OLD", .plain "NEW")]⟩ =
      .err (.vnode [] ⟨false, [], [("OLD", .plain "NEW")]⟩)
        (.keyRenamed "OLD" "NEW" none) := by
  constructor
  · exact renamed_key_merge_errors.1 []
      ⟨false, [], [("OLD.KEY", .withMsg "NEW.KEY" "note")]⟩ "OLD.KEY" (.vint 1)
      [] (.withMsg "NEW.KEY" "note") rfl rfl
  · exact renamed_key_merge_errors.2.2.1 "OLD" (.vint 1) [] [] metaDefault
      ⟨false, [], [("OLD", .plain "NEW")]⟩ _ (.plain "NEW") rfl rfl rfl

/-! ## Claim C3: merge preserves key sets

`keyShape` projects a value to its key skeleton: a `CfgNode` keeps its keys
(recursively), anything else collapses to `None`.  Two targets with equal
key shapes have exactly the same keys at every depth. -/

mutual
def keyShape : Value → Value
  | .vnode es _ => .vnode (keyShapeEntries es) metaDefault
  | _ => .vnone

def keyShapeEntries : Entries → Entries
  | [] => []
  | (k, v) :: es => (k, keyShape v) :: keyShapeEntries es
end

theorem vsize_pos (v : Value) : 1 ≤ vsize v := by
  cases v <;> simp [vsize]

theorem vsizeEntries_pos (es : Entries) : 1 ≤ vsizeEntries es := by
  cases es with
  | nil => simp [vsizeEntries]
  | cons p rest => obtain ⟨k, v⟩ := p; simp [vsizeEntries]; omega

/-- `keyShape` of the two values agree whenever neither is a node. -/
theorem keyShape_of_not_node (v : Value) (h : v.isNode = false) :
    keyShape v = .vnone := by
  cases v <;> simp_all [Value.isNode, keyShape]

/-- Type-name equality forces node-ness to agree. -/
theorem isNode_eq_of_pyTypeName_eq (a b : Value)
    (h : pyTypeName a = pyTypeName b) : a.isNode = b.isNode := by
  cases a <;> cases b <;> simp_all [pyTypeName, Value.isNode]

/-- A successful reconciliation preserves node-ness of the target side: the
result is a `CfgNode` exactly when the existing value was. -/
theorem coerce_ok_isNode (a b : Value) (k fk : String) (v2 : Value)
    (h : check_and_coerce_cfg_value_type a b k fk = .ok v2) :
    v2.isNode = b.isNode := by
  unfold check_and_coerce_cfg_value_type at h
  split at h
  · next hty =>
    cases h
    exact isNode_eq_of_pyTypeName_eq _ _ hty
  · split at h
    · next hstr =>
      cases h
      cases b <;> simp_all [Value.isStr, Value.isNode]
    · split at h <;> first
        | (cases h; simp [Value.isNode])
        | (cases h; rfl)
        | exact absurd h (by simp)

/-- A successful reconciliation returning a `CfgNode` took the exact-type
branch: the candidate is returned unchanged. -/
theorem coerce_ok_node_inv (a b : Value) (k fk : String) (es : Entries)
    (m : Meta) (h : check_and_coerce_cfg_value_type a b k fk = .ok (.vnode es m)) :
    a = .vnode es m := by
  unfold check_and_coerce_cfg_value_type at h
  split at h
  · cases h; rfl
  · split at h
    · cases h
    · split at h <;> first
        | cases h
        | exact absurd h (by simp)

/-- Overwriting an existing entry with a value of the same key shape
preserves the key shape of the whole entry list. -/
theorem keyShapeEntries_setEntry (bs : Entries) (k : String) (bv v : Value)
    (hbk : lookupE bs k = some bv) (hsh : keyShape v = keyShape bv) :
    keyShapeEntries (setEntry bs k v) = keyShapeEntries bs := by
  induction bs with
  | nil => simp [lookupE] at hbk
  | cons p rest ih =>
    obtain ⟨k0, v0⟩ := p
    by_cases hk : k0 = k
    · subst hk
      rw [lookupE_cons, if_pos rfl] at hbk
      injection hbk with hbk
      subst hbk
      simp [setEntry, keyShapeEntries, hsh]
    · simp only [setEntry_cons, if_neg hk, keyShapeEntries]
      rw [ih (by simpa [lookupE, hk] using hbk)]

/-- A successful run of the merge loop leaves the target with exactly the
key shape it had: same keys in the same order at every depth. -/
theorem mergeEntriesF_keyShape :
    ∀ (fuel : Nat) (as_ bs : Entries) (root : Meta)
      (stack : Option (List String)) (bs' : Entries),
      mergeEntriesF fuel as_ bs root stack = .ok bs' →
      keyShapeEntries bs' = keyShapeEntries bs := by
  intro fuel
  induction fuel with
  | zero => intro as_ bs root stack bs' h; exact MRes.noConfusion h
  | succ fuel ih =>
    intro as_ bs root stack bs' h
    cases as_ with
    | nil =>
      simp only [mergeEntriesF] at h
      cases h
      rfl
    | cons p rest =>
      obtain ⟨k, v0⟩ := p
      simp only [mergeEntriesF] at h
      split at h
      · -- k not in the target
        split at h
        · exact ih _ _ _ _ _ h
        · split at h <;> exact MRes.noConfusion h
      · next bv hbk =>
        split at h
        · exact MRes.noConfusion h
        · next v2 hco =>
          split at h
          · -- v2 is a CfgNode: recurse into b[k]
            next aes am =>
            split at h
            · next bes bm =>
              split at h
              · next bes2 hinner =>
                have h1 := ih _ _ _ _ _ hinner
                have h2 := ih _ _ _ _ _ h
                rw [h2]
                exact keyShapeEntries_setEntry bs k _ _ hbk
                  (by simp [keyShape, h1])
              · exact MRes.noConfusion h
              · exact MRes.noConfusion h
            · exact MRes.noConfusion h
          · -- v2 is not a CfgNode: plain overwrite
            next hnotnode =>
            have hv2n : v2.isNode = false := by
              cases v2 <;> simp [Value.isNode]
              exact hnotnode _ _ rfl
            have hbvn : bv.isNode = false := by
              rw [← coerce_ok_isNode _ _ _ _ _ hco]
              exact hv2n
            have h2 := ih _ _ _ _ _ h
            rw [h2]
            exact keyShapeEntries_setEntry bs k _ _ hbk
              (by rw [keyShape_of_not_node _ hv2n, keyShape_of_not_node _ hbvn])

/-- A successful per-pair walk of `merge_from_list` preserves the key list of
the node it starts from (the assignment overwrites an existing entry, at this
level or deeper). -/
theorem mergeListPath_map_fst :
    ∀ (segs : List String) (full_key : String) (es : Entries) (v : Value)
      (es' : Entries),
      mergeListPath segs full_key es v = .ok es' →
      es'.map Prod.fst = es.map Prod.fst := by
  intro segs
  induction segs with
  | nil => intro fk es v es' h; simp [mergeListPath] at h
  | cons seg rest ih =>
    intro fk es v es' h
    cases rest with
    | nil =>
      simp only [mergeListPath] at h
      split at h
      · exact Except.noConfusion h
      · next bv hbv =>
        split at h
        · exact Except.noConfusion h
        · next v2 hco =>
          cases h
          exact map_fst_setEntry es seg v2 (by simp [containsKey, hbv])
    | cons seg2 rest2 =>
      simp only [mergeListPath] at h
      split at h
      · exact Except.noConfusion h
      · next es2 m2 hbv =>
        split at h
        · exact Except.noConfusion h
        · next es3 hrec =>
          cases h
          exact map_fst_setEntry es seg _ (by simp [containsKey, hbv])
      · next es2 hbv =>
        split at h
        · exact Except.noConfusion h
        · next es3 hrec =>
          cases h
          exact map_fst_setEntry es seg _ (by simp [containsKey, hbv])
      · exact Except.noConfusion h

/-- A successful override-list merge preserves the key list of the root. -/
theorem merge_from_list_map_fst :
    ∀ (lst : List (String × Value)) (es : Entries) (root : Meta) (es' : Entries),
      merge_from_list es root lst = .ok es' →
      es'.map Prod.fst = es.map Prod.fst := by
  intro lst
  induction lst with
  | nil => intro es root es' h; cases h; rfl
  | cons p rest ih =>
    obtain ⟨fk, v⟩ := p
    intro es root es' h
    simp only [merge_from_list] at h
    split at h
    · exact ih _ _ _ h
    · split at h
      · exact MResL.noConfusion h
      · split at h
        · exact MResL.noConfusion h
        · next es2 hpath =>
          rw [ih _ _ _ h]
          exact mergeListPath_map_fst _ _ _ _ _ hpath

/-- **C3 (amended).** Every successful tree-into-tree merge preserves the
target's key shape — exactly the same keys, in order, at every depth (and
the override-list merge preserves the key list of the merge root).  The
counterexample below shows the override-list merge can nonetheless replace a
whole subtree when the assigned raw value is itself a mapping, changing the
key set strictly below the assigned leaf. -/
theorem merge_preserves_key_sets :
    (∀ (a b : Value) (root : Meta) (b' : Value),
        merge_a_into_b a b root = .ok b' → keyShape b' = keyShape b) ∧
    (∀ (lst : List (String × Value)) (es : Entries) (root : Meta) (es' : Entries),
        merge_from_list es root lst = .ok es' →
        es'.map Prod.fst = es.map Prod.fst) := by
  constructor
  · intro a b root b' h
    unfold merge_a_into_b at h
    split at h
    · split at h
      · next bes2 hm =>
        cases h
        simp [keyShape, mergeEntriesF_keyShape _ _ _ _ _ _ hm]
      · exact MResT.noConfusion h
      · exact MResT.noConfusion h
    · exact MResT.noConfusion h
    · exact MResT.noConfusion h
  · exact fun lst es root es' h => merge_from_list_map_fst lst es root es' h

/-- Witness for C3 (amended), applying the theorem at the two concrete
successful merges evaluated by the kernel. -/
theorem merge_preserves_key_sets_witness :
    keyShape (.vnode [("A", .vnode [("B", .vint 5), ("C", .vint 2)] metaDefault)]
        metaDefault) =
      keyShape (.vnode [("A", .vnode [("B", .vint 1), ("C", .vint 2)] metaDefault)]
        metaDefault) ∧
    ([("A", Value.vnode [("B", Value.vint 7)] metaDefault)] : Entries).map Prod.fst =
      ([("A", Value.vnode [("B", Value.vint 1)] metaDefault)] : Entries).map Prod.fst := by
  constructor
  · exact merge_preserves_key_sets.1
      (.vnode [("A", .vnode [("B", .vint 5)] metaDefault)] metaDefault)
      (.vnode [("A", .vnode [("B", .vint 1), ("C", .vint 2)] metaDefault)] metaDefault)
      metaDefault
      (.vnode [("A", .vnode [("B", .vint 5), ("C", .vint 2)] metaDefault)] metaDefault)
      rfl
  · exact merge_preserves_key_sets.2 [("A.B", .vstr "7")]
      [("A", .vnode [("B", .vint 1)] metaDefault)] metaDefault
      [("A", .vnode [("B", .vint 7)] metaDefault)] rfl

/-- **C3 counterexample.** An override-list merge that assigns a raw mapping
to an existing leaf replaces the subtree wholesale: the merge succeeds, yet
the key set at depth 1 changes from `{B}` to `{C}`. -/
theorem list_merge_changes_nested_keys_counterexample :
    merge_from_list [("A", .vnode [("B", .vint 1)] metaDefault)] metaDefault
      [("A", .vdict [("C", .vint 2)])] =
      .ok [("A", .vnode [("C", .vint 2)] metaDefault)] ∧
    keyShapeEntries [("A", Value.vnode [("C", Value.vint 2)] metaDefault)] ≠
      keyShapeEntries [("A", Value.vnode [("B", Value.vint 1)] metaDefault)] := by
  refine ⟨rfl, ?_⟩
  intro h
  simp [keyShapeEntries, keyShape] at h

/-! ## Claim C4: unknown keys -/

/-- The entries of a mapping value (`dict` or `CfgNode`), `none` otherwise. -/
def mappingEntries : Value → Option Entries
  | .vdict es => some es
  | .vnode es _ => some es
  | _ => none

/-- The overlay contains the dotted path: each segment is a key of the
current mapping, descending through mapping values (which is what the merge
descends through after decoding). -/
inductive OverlayHasPath : List String → Entries → Prop where
  | last (k : String) (v : Value) (es : Entries) :
      lookupE es k = some v → OverlayHasPath [k] es
  | step (k : String) (v : Value) (es es' : Entries) (p : List String) :
      lookupE es k = some v → mappingEntries v = some es' →
      OverlayHasPath p es' → OverlayHasPath (k :: p) es

/-- The target resolves every proper prefix of the path to a nested
`CfgNode` and the final segment is absent from the node it lands in. -/
inductive TargetLacksPath : List String → Entries → Prop where
  | last (k : String) (es : Entries) :
      lookupE es k = none → TargetLacksPath [k] es
  | step (k : String) (es es' : Entries) (m : Meta) (p : List String) :
      lookupE es k = some (.vnode es' m) → TargetLacksPath p es' →
      TargetLacksPath (k :: p) es

/-- The full dotted key the merge builds when it reaches the end of the
path, starting from the given stack. -/
def joinStack : Option (List String) → List String → String
  | _, [] => ""
  | st, [k] => fullKeyOf st k
  | st, k :: p => joinStack (stackPush st k) p

/-- `decode` turns a mapping into the `CfgNode` with the same entries. -/
theorem decode_of_mappingEntries (v : Value) (es : Entries)
    (h : mappingEntries v = some es) :
    decode_cfg_value v = .vnode es metaDefault := by
  cases v <;> simp_all [mappingEntries, decode_cfg_value]

/-- Reconciling a decoded mapping against a `CfgNode` target passes it
through unchanged (exact type match). -/
theorem coerce_node_node (aes bes : Entries) (am bm : Meta) (k fk : String) :
    check_and_coerce_cfg_value_type (.vnode aes am) (.vnode bes bm) k fk =
      .ok (.vnode aes am) := by
  simp [check_and_coerce_cfg_value_type, pyTypeName]

/-- `ast.literal_eval` builds ints, booleans, `None`, strings, lists, tuples
and plain dicts — never a `CfgNode`. -/
theorem parseValF_isNode_false :
    ∀ (f : Nat) (cs : List Char) (v : Value) (rest : List Char),
      parseValF f cs = some (v, rest) → v.isNode = false := by
  intro f
  induction f with
  | zero => intro cs v rest h; exact Option.noConfusion h
  | succ f ih =>
    intro cs v rest h
    rw [parseValF] at h
    repeat' split at h
    all_goals
      first
      | exact Option.noConfusion h
      | (cases h; rfl)
      | (cases h; exact ih _ _ _ (by assumption))

/-- `literal_eval` output is never a `CfgNode`. -/
theorem literalEval_isNode_false (s : String) (v : Value)
    (h : literalEval s = some v) : v.isNode = false := by
  unfold literalEval at h
  split at h
  · next p heq =>
    split at h
    · cases h
      exact parseValF_isNode_false _ _ _ _ heq
    · exact Option.noConfusion h
  · exact Option.noConfusion h

/-- If decoding yields a `CfgNode`, the input was a mapping and the node's
entries are structurally smaller than the input (strings cannot decode to a
`CfgNode`: `literal_eval` never builds one). -/
theorem decode_node_size (v0 : Value) (aes : Entries) (am : Meta)
    (h : decode_cfg_value v0 = .vnode aes am) :
    vsizeEntries aes < vsize v0 := by
  cases v0 with
  | vdict es =>
    simp only [decode_cfg_value, Value.vnode.injEq] at h
    rw [← h.1]
    simp [vsize]
  | vnode es m =>
    simp only [decode_cfg_value, Value.vnode.injEq] at h
    rw [← h.1]
    simp [vsize]
  | vstr s =>
    simp only [decode_cfg_value] at h
    split at h
    · next v' heq =>
      subst h
      have := literalEval_isNode_false _ _ heq
      simp [Value.isNode] at this
    · exact absurd h (by simp)
  | vint n => simp [decode_cfg_value] at h
  | vbool b => simp [decode_cfg_value] at h
  | vnone => simp [decode_cfg_value] at h
  | vlist xs => simp [decode_cfg_value] at h
  | vtuple xs => simp [decode_cfg_value] at h

/-- Fuel sufficiency: with fuel at least the structural size of the overlay
entries, the merge loop never runs out of fuel — the `fuelOut` artifact
never arises from the public wrapper. -/
theorem mergeEntriesF_no_fuelOut :
    ∀ (fuel : Nat) (as_ bs : Entries) (root : Meta)
      (stack : Option (List String)),
      vsizeEntries as_ ≤ fuel →
      mergeEntriesF fuel as_ bs root stack ≠ .fuelOut := by
  intro fuel
  induction fuel with
  | zero =>
    intro as_ bs root stack hle
    have := vsizeEntries_pos as_
    omega
  | succ fuel ih =>
    intro as_ bs root stack hle h
    cases as_ with
    | nil => simp [mergeEntriesF] at h
    | cons p rest =>
      obtain ⟨k, v0⟩ := p
      have hv0 := vsize_pos v0
      have hle' : 1 + vsize v0 + vsizeEntries rest ≤ fuel + 1 := by
        simpa [vsizeEntries] using hle
      have hrest : vsizeEntries rest ≤ fuel := by omega
      simp only [mergeEntriesF] at h
      split at h
      · split at h
        · exact ih rest bs root stack hrest h
        · split at h <;> exact MRes.noConfusion h
      · next bv hbk =>
        split at h
        · exact MRes.noConfusion h
        · next v2 hco =>
          split at h
          · next aes am =>
            split at h
            · next bes bm =>
              have hv1 : decode_cfg_value v0 = .vnode aes am :=
                coerce_ok_node_inv _ _ _ _ _ _ hco
              have haes : vsizeEntries aes < vsize v0 := decode_node_size _ _ _ hv1
              have haes2 : vsizeEntries aes ≤ fuel := by omega
              split at h
              · exact ih rest _ root stack hrest h
              · exact MRes.noConfusion h
              · next hinner => exact absurd hinner (ih aes bes root _ haes2)
            · exact MRes.noConfusion h
          · exact ih rest _ root stack hrest h

theorem overlayHasPath_ne_nil {p : List String} {es : Entries}
    (h : OverlayHasPath p es) : p ≠ [] := by
  cases h <;> simp

theorem joinStack_cons (st : Option (List String)) (k : String)
    (p : List String) (hp : p ≠ []) :
    joinStack st (k :: p) = joinStack (stackPush st k) p := by
  cases p with
  | nil => exact absurd rfl hp
  | cons a q => rfl

/-- If the overlay contains a dotted path, every proper prefix of which the
target resolves to a nested `CfgNode` and whose last segment the landing
node lacks, and that full key is registered neither deprecated nor renamed,
then the merge loop never returns successfully. -/
theorem mergeEntriesF_unknown_path_not_ok :
    ∀ (fuel : Nat) (p : List String) (as_ bs : Entries) (root : Meta)
      (stack : Option (List String)),
      OverlayHasPath p as_ →
      TargetLacksPath p bs →
      key_is_deprecated root (joinStack stack p) = false →
      lookupRenamed root (joinStack stack p) = none →
      ∀ bs', mergeEntriesF fuel as_ bs root stack ≠ .ok bs' := by
  intro fuel
  induction fuel with
  | zero => intro p as_ bs root stack _ _ _ _ bs' h; exact MRes.noConfusion h
  | succ fuel ih =>
    intro p as_ bs root stack hop htp hdep hren bs' h
    cases as_ with
    | nil =>
      cases hop with
      | last k v es hk => simp [lookupE] at hk
      | step k v es es2 p' hk hme hop' => simp [lookupE] at hk
    | cons phead rest =>
      obtain ⟨kh, vh⟩ := phead
      simp only [mergeEntriesF] at h
      cases hop with
      | last k v es hk =>
        cases htp with
        | step _ _ tes tm _ hbk2 htp' => cases htp'
        | last _ _ hbs =>
          by_cases hkh : kh = k
          · subst hkh
            have hdep' : key_is_deprecated root (fullKeyOf stack kh) = false := hdep
            have hren' : lookupRenamed root (fullKeyOf stack kh) = none := hren
            simp only [hbs, hdep', hren', Bool.false_eq_true, if_false] at h
            exact MRes.noConfusion h
          · have hk' : lookupE rest k = some v := by
              simpa [lookupE, hkh] using hk
            split at h
            · split at h
              · exact ih [k] rest bs root stack (.last _ _ _ hk')
                  (.last _ _ hbs) hdep hren bs' h
              · split at h <;> exact MRes.noConfusion h
            · next bv hbk =>
              split at h
              · exact MRes.noConfusion h
              · next v2 hco =>
                split at h
                · next aes am =>
                  split at h
                  · next bes bm =>
                    split at h
                    · next bes2 hinner =>
                      have hbs2 : lookupE (setEntry bs kh (.vnode bes2 bm)) k = none := by
                        rw [lookupE_setEntry_ne _ _ _ _ hkh]; exact hbs
                      exact ih [k] rest _ root stack (.last _ _ _ hk')
                        (.last _ _ hbs2) hdep hren bs' h
                    · exact MRes.noConfusion h
                    · exact MRes.noConfusion h
                  · exact MRes.noConfusion h
                · have hbs2 : lookupE (setEntry bs kh v2) k = none := by
                    rw [lookupE_setEntry_ne _ _ _ _ hkh]; exact hbs
                  exact ih [k] rest _ root stack (.last _ _ _ hk')
                    (.last _ _ hbs2) hdep hren bs' h
      | step k v es es2 p' hk hme hop' =>
        cases htp with
        | last _ _ hbs => cases hop'
        | step _ _ tes tm _ hbk2 htp' =>
          have hpne : p' ≠ [] := overlayHasPath_ne_nil hop'
          have hjoin := joinStack_cons stack k p' hpne
          by_cases hkh : kh = k
          · subst hkh
            have hvh : vh = v := by
              have h0 : lookupE ((kh, vh) :: rest) kh = some vh := by simp [lookupE]
              rw [hk] at h0
              exact (Option.some.injEq _ _ ▸ h0).symm
            subst hvh
            simp only [hbk2, decode_of_mappingEntries _ _ hme, coerce_node_node] at h
            split at h
            · next bes2 hinner =>
              exact ih p' es2 tes root (stackPush stack kh) hop' htp'
                (hjoin ▸ hdep) (hjoin ▸ hren) bes2 hinner
            · exact MRes.noConfusion h
            · exact MRes.noConfusion h
          · have hk' : lookupE rest k = some v := by
              simpa [lookupE, hkh] using hk
            split at h
            · split at h
              · exact ih (k :: p') rest bs root stack (.step _ _ _ _ _ hk' hme hop')
                  (.step _ _ _ _ _ hbk2 htp') hdep hren bs' h
              · split at h <;> exact MRes.noConfusion h
            · next bv hbk =>
              split at h
              · exact MRes.noConfusion h
              · next v2 hco =>
                split at h
                · next aes am =>
                  split at h
                  · next bes bm =>
                    split at h
                    · next bes2 hinner =>
                      have hbs2 : lookupE (setEntry bs kh (.vnode bes2 bm)) k =
                          some (.vnode tes tm) := by
                        rw [lookupE_setEntry_ne _ _ _ _ hkh]; exact hbk2
                      exact ih (k :: p') rest _ root stack
                        (.step _ _ _ _ _ hk' hme hop')
                        (.step _ _ _ _ _ hbs2 htp') hdep hren bs' h
                    · exact MRes.noConfusion h
                    · exact MRes.noConfusion h
                  · exact MRes.noConfusion h
                · have hbs2 : lookupE (setEntry bs kh v2) k = some (.vnode tes tm) := by
                    rw [lookupE_setEntry_ne _ _ _ _ hkh]; exact hbk2
                  exact ih (k :: p') rest _ root stack
                    (.step _ _ _ _ _ hk' hme hop')
                    (.step _ _ _ _ _ hbs2 htp') hdep hren bs' h

/-- **C4 (amended).** When the merge loop reaches an overlay key absent from
the target and registered neither deprecated nor renamed, it fails with the
`KeyError` naming the full dotted key and returns the target exactly as it
was at that point — the failing key mutates nothing (earlier keys of the
same call may already be applied).  And whenever the overlay contains a
dotted path whose proper prefixes the target resolves to nested tree nodes
and whose final segment is missing there (the path being registered neither
deprecated nor renamed), the whole merge raises: it never returns
successfully. -/
theorem unknown_key_merge_fails :
    (∀ (fuel : Nat) (k : String) (v0 : Value) (rest bs : Entries) (root : Meta)
        (stack : Option (List String)),
        lookupE bs k = none →
        key_is_deprecated root (fullKeyOf stack k) = false →
        lookupRenamed root (fullKeyOf stack k) = none →
        mergeEntriesF (fuel + 1) ((k, v0) :: rest) bs root stack =
          .err bs (.nonExistentKey (fullKeyOf stack k))) ∧
    (∀ (p : List String) (aes bes : Entries) (am bm root : Meta),
        OverlayHasPath p aes →
        TargetLacksPath p bes →
        key_is_deprecated root (joinStack none p) = false →
        lookupRenamed root (joinStack none p) = none →
        ∃ (b' : Value) (e : PyErr),
          merge_a_into_b (.vnode aes am) (.vnode bes bm) root = .err b' e) := by
  constructor
  · intro fuel k v0 rest bs root stack hbk hdep hren
    simp [mergeEntriesF, hbk, hdep, hren]
  · intro p aes bes am bm root hop htp hdep hren
    cases hres : mergeEntriesF (vsizeEntries aes) aes bes root none with
    | ok bs2 =>
      exact absurd hres
        (mergeEntriesF_unknown_path_not_ok _ p aes bes root none hop htp hdep hren bs2)
    | err bs2 e =>
      exact ⟨.vnode bs2 bm, e, by simp [merge_a_into_b, hres]⟩
    | fuelOut =>
      exact absurd hres (mergeEntriesF_no_fuelOut _ aes bes root none le_rfl)

/-- Witness for C4 (amended) at the concrete path `A.X`: overlay
`{"A": {"X": 1}}`, target `{"A": {}}`. -/
theorem unknown_key_merge_fails_witness :
    mergeEntriesF 1 [("X", .vint 1)] [] metaDefault (some ["A"]) =
      .err [] (.nonExistentKey "A.X") ∧
    (∃ (b' : Value) (e : PyErr),
        merge_a_into_b (.vnode [("A", .vdict [("X", .vint 1)])] metaDefault)
          (.vnode [("A", .vnode [] metaDefault)] metaDefault) metaDefault =
          .err b' e) := by
  constructor
  · exact unknown_key_merge_fails.1 0 "X" (.vint 1) [] [] metaDefault
      (some ["A"]) rfl rfl rfl
  · exact unknown_key_merge_fails.2 ["A", "X"]
      [("A", .vdict [("X", .vint 1)])] [("A", .vnode [] metaDefault)]
      metaDefault metaDefault metaDefault
      (.step "A" (.vdict [("X", .vint 1)]) _ [("X", .vint 1)] ["X"] rfl rfl
        (.last "X" (.vint 1) _ rfl))
      (.step "A" _ [] metaDefault ["X"] rfl (.last "X" [] rfl))
      rfl rfl

/-- **C4 counterexample.** The claim as stated fails: the overlay full key
`A.X` is absent from the target (whose `A` is a string), is registered
neither deprecated nor renamed, and yet the merge *succeeds* — the nested
mapping is stringified against the string-typed target leaf and the unknown
key inside it is silently swallowed. -/
theorem nested_unknown_key_swallowed_counterexample :
    merge_a_into_b (.vnode [("A", .vdict [("X", .vint 1)])] metaDefault)
      (.vnode [("A", .vstr "s")] metaDefault) metaDefault =
      .ok (.vnode [("A", .vstr "\x7b'X': 1\x7d")] metaDefault) ∧
    OverlayHasPath ["A", "X"] [("A", Value.vdict [("X", Value.vint 1)])] ∧
    lookupE [("A", Value.vstr "s")] "A" = some (.vstr "s") ∧
    key_is_deprecated metaDefault "A.X" = false ∧
    key_is_renamed metaDefault "A.X" = false := by
  refine ⟨rfl, ?_, rfl, rfl, rfl⟩
  exact .step "A" (.vdict [("X", .vint 1)]) _ [("X", .vint 1)] ["X"] rfl rfl
    (.last "X" (.vint 1) _ rfl)

/-! ## Claim C9: `clone()` is a fully independent deep copy

`CfgNode.clone` is `copy.deepcopy(self)` (config.py 133-135).  Everywhere
else the development embeds in-place mutation as state passing; deep-copy
independence is a claim about *aliasing*, so here the object store is made
explicit: `CfgNode`s live in a heap addressed by ids, child nodes are held
by reference, and `deepcopy` recursively copies into fresh ids (allocated
from a counter past every existing id).  The mutable state of the source is
exactly the per-node entry list and metadata (`dict` contents and
`__dict__`), so a mutation step replaces the node stored at one id —
covering attribute writes, key writes and freeze/defrost on that node. -/

/-- A stored value: an immutable leaf, or a reference to a child node. -/
inductive HVal where
  | prim (v : Value)
  | ref (i : Nat)

/-- One `CfgNode` object: entries (children by reference) and metadata. -/
structure HNode where
  entries : List (String × HVal)
  meta : Meta

/-- The object store. -/
abbrev Heap := List (Nat × HNode)

def hget : Heap → Nat → Option HNode
  | [], _ => none
  | (j, nd) :: h, i => if j = i then some nd else hget h i

/-- Replace the node stored at `i` (a no-op on a dangling id). -/
def hset : Heap → Nat → HNode → Heap
  | [], _, _ => []
  | (j, nd0) :: h, i, nd => if j = i then (i, nd) :: h else (j, nd0) :: hset h i nd

/-- The next fresh id: one past every id in the heap. -/
def freshId (h : Heap) : Nat :=
  h.foldr (fun p acc => max (p.1 + 1) acc) 0

/-- Every id and every reference in the heap lies below `n`. -/
def HeapBelow (h : Heap) (n : Nat) : Prop :=
  ∀ i nd, (i, nd) ∈ h → i < n ∧ ∀ k j, (k, HVal.ref j) ∈ nd.entries → j < n

mutual
/-- Resolve the tree rooted at id `i` back to a pure `Value` (fuelled; the
heaps built here are trees, and every theorem quantifies over the fuel). -/
def readoutF : Nat → Heap → Nat → Option Value
  | 0, _, _ => none
  | f + 1, h, i =>
    match hget h i with
    | none => none
    | some nd =>
      match readoutEntriesF f h nd.entries with
      | some es => some (.vnode es nd.meta)
      | none => none

def readoutEntriesF : Nat → Heap → List (String × HVal) → Option Entries
  | 0, _, _ => none
  | _ + 1, _, [] => some []
  | f + 1, h, (k, .prim v) :: es =>
    (match readoutEntriesF f h es with
     | some es2 => some ((k, v) :: es2)
     | none => none)
  | f + 1, h, (k, .ref j) :: es =>
    match readoutF f h j with
    | some v =>
      (match readoutEntriesF f h es with
       | some es2 => some ((k, v) :: es2)
       | none => none)
    | none => none
end

mutual
/-- `copy.deepcopy` of the node at `i`: copy children first, then allocate
the copy of the node itself at the running counter `next` (which starts past
every existing id and increases with each allocation). -/
def copyNodeF : Nat → Heap → Nat → Nat → Option (Heap × Nat × Nat)
  | 0, _, _, _ => none
  | f + 1, h, next, i =>
    match hget h i with
    | none => none
    | some nd =>
      match copyEntriesF f h next nd.entries with
      | some (h2, next2, es2) =>
        some (h2 ++ [(next2, ⟨es2, nd.meta⟩)], next2, next2 + 1)
      | none => none

def copyEntriesF : Nat → Heap → Nat → List (String × HVal) →
    Option (Heap × Nat × List (String × HVal))
  | 0, _, _, _ => none
  | _ + 1, h, next, [] => some (h, next, [])
  | f + 1, h, next, (k, .prim v) :: es =>
    (match copyEntriesF f h next es with
     | some (h2, next2, es2) => some (h2, next2, (k, .prim v) :: es2)
     | none => none)
  | f + 1, h, next, (k, .ref j) :: es =>
    match copyNodeF f h next j with
    | some (h2, j2, next2) =>
      (match copyEntriesF f h2 next2 es with
       | some (h3, next3, es3) => some (h3, next3, (k, .ref j2) :: es3)
       | none => none)
    | none => none
end

/-- `CfgNode.clone()` (config.py 133-135): deep-copy the node at `i` into
fresh ids. -/
def CfgNode_clone (fuel : Nat) (h : Heap) (i : Nat) :
    Option (Heap × Nat × Nat) :=
  copyNodeF fuel h (freshId h) i

theorem hget_mem (h : Heap) (i : Nat) (nd : HNode) (hg : hget h i = some nd) :
    (i, nd) ∈ h := by
  induction h with
  | nil => exact Option.noConfusion hg
  | cons p rest ih =>
    obtain ⟨j, nd0⟩ := p
    by_cases hj : j = i
    · subst hj
      simp only [hget, if_pos rfl] at hg
      cases hg
      exact List.mem_cons_self _ _
    · simp only [hget, if_neg hj] at hg
      exact List.mem_cons_of_mem _ (ih hg)

theorem hget_append_of_some (h l : Heap) (i : Nat) (nd : HNode)
    (hg : hget h i = some nd) : hget (h ++ l) i = some nd := by
  induction h with
  | nil => exact Option.noConfusion hg
  | cons p rest ih =>
    obtain ⟨j, nd0⟩ := p
    by_cases hj : j = i
    · subst hj; simpa [hget] using hg
    · simp only [List.cons_append, hget, if_neg hj] at hg ⊢
      exact ih hg

theorem hget_append_of_none (h l : Heap) (i : Nat)
    (hg : hget h i = none) : hget (h ++ l) i = hget l i := by
  induction h with
  | nil => rfl
  | cons p rest ih =>
    obtain ⟨j, nd0⟩ := p
    by_cases hj : j = i
    · subst hj; simp [hget] at hg
    · simp only [List.cons_append, hget, if_neg hj] at hg ⊢
      exact ih hg

theorem hget_hset_ne (h : Heap) (i j : Nat) (nd : HNode) (hij : i ≠ j) :
    hget (hset h i nd) j = hget h j := by
  induction h with
  | nil => rfl
  | cons p rest ih =>
    obtain ⟨j0, nd0⟩ := p
    by_cases hj0 : j0 = i
    · subst hj0
      simp [hset, hget, hij, ih]
    · simp only [hset, if_neg hj0, hget]
      by_cases hj0' : j0 = j <;> simp [hj0', ih]

theorem heapBelow_mono (h : Heap) (n n' : Nat) (hle : n ≤ n')
    (hb : HeapBelow h n) : HeapBelow h n' := by
  intro i nd hm
  obtain ⟨h1, h2⟩ := hb i nd hm
  exact ⟨lt_of_lt_of_le h1 hle, fun k j hj => lt_of_lt_of_le (h2 k j hj) hle⟩

theorem hget_none_of_below (h : Heap) (n i : Nat) (hb : HeapBelow h n)
    (hi : n ≤ i) : hget h i = none := by
  cases hg : hget h i with
  | none => rfl
  | some nd =>
    have := (hb i nd (hget_mem _ _ _ hg)).1
    omega

theorem mem_freshId (h : Heap) (i : Nat) (nd : HNode) (hm : (i, nd) ∈ h) :
    i < freshId h := by
  induction h with
  | nil => simp at hm
  | cons p rest ih =>
    rcases List.mem_cons.mp hm with heq | hm2
    · subst heq
      simp only [freshId, List.foldr_cons]
      omega
    · have := ih hm2
      simp only [freshId, List.foldr_cons] at *
      omega

/-- Readout only depends on the heap below `n`, provided the root and every
reference reachable from it stay below `n` (which `HeapBelow` supplies). -/
theorem readout_agree :
    ∀ (f : Nat) (h1 h2 : Heap) (n : Nat),
      HeapBelow h1 n → (∀ j, j < n → hget h2 j = hget h1 j) →
      (∀ i, i < n → readoutF f h2 i = readoutF f h1 i) ∧
      (∀ es, (∀ k j, (k, HVal.ref j) ∈ es → j < n) →
        readoutEntriesF f h2 es = readoutEntriesF f h1 es) := by
  intro f
  induction f with
  | zero => intro h1 h2 n hb hag; exact ⟨fun i _ => rfl, fun es _ => rfl⟩
  | succ f ih =>
    intro h1 h2 n hb hag
    obtain ⟨ihv, ihe⟩ := ih h1 h2 n hb hag
    constructor
    · intro i hi
      simp only [readoutF]
      rw [hag i hi]
      cases hnd : hget h1 i with
      | none => rfl
      | some nd =>
        have hrefs := (hb i nd (hget_mem _ _ _ hnd)).2
        show (match readoutEntriesF f h2 nd.entries with
              | some es => some (Value.vnode es nd.meta)
              | none => none) =
            (match readoutEntriesF f h1 nd.entries with
              | some es => some (Value.vnode es nd.meta)
              | none => none)
        rw [ihe nd.entries hrefs]
    · intro es hrefs
      cases es with
      | nil => rfl
      | cons p rest =>
        obtain ⟨k, hv⟩ := p
        cases hv with
        | prim v =>
          simp only [readoutEntriesF]
          rw [ihe rest (fun k j hm => hrefs k j (List.mem_cons_of_mem _ hm))]
        | ref j =>
          have hj : j < n := hrefs k j (List.mem_cons_self _ _)
          simp only [readoutEntriesF]
          rw [ihv j hj, ihe rest (fun k j hm => hrefs k j (List.mem_cons_of_mem _ hm))]

/-- What one `hget` step on an extended heap does below the fresh region. -/
theorem hget_append_fresh (h : Heap) (jnew : Nat) (nd : HNode) (j : Nat)
    (hj : j ≠ jnew) : hget (h ++ [(jnew, nd)]) j = hget h j := by
  cases hg : hget h j with
  | some nd0 => rw [hget_append_of_some _ _ _ _ hg]
  | none =>
    rw [hget_append_of_none _ _ _ hg]
    simp [hget, Ne.symm hj]

/-- Deep-copy correctness: a successful `copyNodeF` from a heap whose ids
and references lie below the allocation counter (a) leaves every existing id
untouched, (b) allocates the copy at a fresh id at or above the old counter,
(c) keeps the extended heap well formed, and (d) gives the copy the same
readout as the original, at every fuel. -/
theorem copy_spec :
    ∀ (f : Nat),
      (∀ (h : Heap) (next i : Nat) (h2 : Heap) (i2 next2 : Nat),
        HeapBelow h next →
        copyNodeF f h next i = some (h2, i2, next2) →
        (∀ j, j < next → hget h2 j = hget h j) ∧
        next ≤ i2 ∧ i2 < next2 ∧ HeapBelow h2 next2 ∧
        (∀ g, readoutF g h2 i2 = readoutF g h i)) ∧
      (∀ (h : Heap) (next : Nat) (es : List (String × HVal)) (h2 : Heap)
          (next2 : Nat) (es2 : List (String × HVal)),
        HeapBelow h next →
        (∀ k j, (k, HVal.ref j) ∈ es → j < next) →
        copyEntriesF f h next es = some (h2, next2, es2) →
        (∀ j, j < next → hget h2 j = hget h j) ∧
        next ≤ next2 ∧ HeapBelow h2 next2 ∧
        (∀ k j, (k, HVal.ref j) ∈ es2 → j < next2) ∧
        (∀ g, readoutEntriesF g h2 es2 = readoutEntriesF g h es)) := by
  intro f
  induction f with
  | zero =>
    constructor
    · intro h next i h2 i2 next2 _ hc; exact Option.noConfusion hc
    · intro h next es h2 next2 es2 _ _ hc; exact Option.noConfusion hc
  | succ f ihf =>
    obtain ⟨ihn, ihe⟩ := ihf
    constructor
    · intro h next i h2 i2 next2 hb hc
      cases hnd : hget h i with
      | none =>
        simp only [copyNodeF, hnd] at hc
        exact Option.noConfusion hc
      | some nd =>
        cases hce : copyEntriesF f h next nd.entries with
        | none =>
          simp only [copyNodeF, hnd, hce] at hc
          exact Option.noConfusion hc
        | some t =>
          obtain ⟨h3, next3, es3⟩ := t
          simp only [copyNodeF, hnd, hce, Option.some.injEq, Prod.mk.injEq] at hc
          obtain ⟨hch, hci, hcn⟩ := hc
          subst hch
          subst hci
          subst hcn
          have hrefs := (hb i nd (hget_mem _ _ _ hnd)).2
          obtain ⟨hlow, hle, hb3, hrefs3, hread⟩ :=
            ihe h next nd.entries h3 next3 es3 hb hrefs hce
          refine ⟨?_, hle, Nat.lt_succ_self _, ?_, ?_⟩
          · intro j hj
            rw [hget_append_fresh h3 next3 _ j (by omega), hlow j hj]
          · intro i0 nd0 hm
            rcases List.mem_append.mp hm with hm1 | hm2
            · obtain ⟨ha, hrefs0⟩ := hb3 i0 nd0 hm1
              exact ⟨by omega, fun k j hj => by have := hrefs0 k j hj; omega⟩
            · simp only [List.mem_singleton, Prod.mk.injEq] at hm2
              obtain ⟨hi0, hnd0⟩ := hm2
              subst hi0
              subst hnd0
              exact ⟨Nat.lt_succ_self _,
                fun k j hj => by have := hrefs3 k j hj; omega⟩
          · intro g
            cases g with
            | zero => rfl
            | succ g =>
              have hg3none : hget h3 next3 = none :=
                hget_none_of_below h3 next3 next3 hb3 le_rfl
              have hgetnew :
                  hget (h3 ++ [(next3, ⟨es3, nd.meta⟩)]) next3 =
                    some ⟨es3, nd.meta⟩ := by
                rw [hget_append_of_none _ _ _ hg3none]
                simp [hget]
              have hagree : ∀ j, j < next3 →
                  hget (h3 ++ [(next3, ⟨es3, nd.meta⟩)]) j = hget h3 j :=
                fun j hj => hget_append_fresh h3 next3 _ j (by omega)
              have hent :=
                (readout_agree g h3 (h3 ++ [(next3, ⟨es3, nd.meta⟩)]) next3
                  hb3 hagree).2 es3 hrefs3
              simp only [readoutF, hgetnew, hnd]
              rw [hent, hread g]
    · intro h next es h2 next2 es2 hb hrefs hc
      cases es with
      | nil =>
        simp only [copyEntriesF, Option.some.injEq, Prod.mk.injEq] at hc
        obtain ⟨hch, hcn, hce2⟩ := hc
        subst hch
        subst hcn
        subst hce2
        exact ⟨fun j _ => rfl, le_rfl, hb,
          fun k j hm => by simp at hm, fun g => rfl⟩
      | cons p rest =>
        obtain ⟨k, hv⟩ := p
        cases hv with
        | prim v =>
          cases hce : copyEntriesF f h next rest with
          | none =>
            simp only [copyEntriesF, hce] at hc
            exact Option.noConfusion hc
          | some t =>
            obtain ⟨h3, next3, es3⟩ := t
            simp only [copyEntriesF, hce, Option.some.injEq, Prod.mk.injEq] at hc
            obtain ⟨hch, hcn, hce2⟩ := hc
            subst hch
            subst hcn
            subst hce2
            have hrest := fun k0 j0 hm => hrefs k0 j0 (List.mem_cons_of_mem _ hm)
            obtain ⟨hlow, hle, hb3, hrefs3, hread⟩ :=
              ihe h next rest h3 next3 es3 hb hrest hce
            refine ⟨hlow, hle, hb3, ?_, ?_⟩
            · intro k0 j hm
              rcases List.mem_cons.mp hm with heq | hm2
              · exact absurd heq (by simp)
              · exact hrefs3 k0 j hm2
            · intro g
              cases g with
              | zero => rfl
              | succ g =>
                simp only [readoutEntriesF]
                rw [hread g]
        | ref j =>
          cases hcn : copyNodeF f h next j with
          | none =>
            simp only [copyEntriesF, hcn] at hc
            exact Option.noConfusion hc
          | some t =>
            obtain ⟨h3, j2, next3⟩ := t
            cases hce : copyEntriesF f h3 next3 rest with
            | none =>
              simp only [copyEntriesF, hcn, hce] at hc
              exact Option.noConfusion hc
            | some t2 =>
              obtain ⟨h4, next4, es4⟩ := t2
              simp only [copyEntriesF, hcn, hce, Option.some.injEq, Prod.mk.injEq] at hc
              obtain ⟨hch, hcn2, hce2⟩ := hc
              subst hch
              subst hcn2
              subst hce2
              have hj : j < next := hrefs k j (List.mem_cons_self _ _)
              obtain ⟨hlowN, hleN, hj2lt, hbN, hreadN⟩ :=
                ihn h next j h3 j2 next3 hb hcn
              have hnext3 : next ≤ next3 := le_of_lt (lt_of_le_of_lt hleN hj2lt)
              have hrest : ∀ k0 j0, (k0, HVal.ref j0) ∈ rest → j0 < next3 :=
                fun k0 j0 hm =>
                  lt_of_lt_of_le (hrefs k0 j0 (List.mem_cons_of_mem _ hm)) hnext3
              obtain ⟨hlowE, hleE, hbE, hrefsE, hreadE⟩ :=
                ihe h3 next3 rest h4 next4 es4 hbN hrest hce
              refine ⟨?_, le_trans hnext3 hleE, hbE, ?_, ?_⟩
              · intro j0 hj0
                rw [hlowE j0 (lt_of_lt_of_le hj0 hnext3), hlowN j0 hj0]
              · intro k0 j0 hm
                rcases List.mem_cons.mp hm with heq | hm2
                · cases heq
                  exact lt_of_lt_of_le hj2lt hleE
                · exact hrefsE k0 j0 hm2
              · intro g
                cases g with
                | zero => rfl
                | succ g =>
                  have h1 : readoutF g h4 j2 = readoutF g h j := by
                    have := (readout_agree g h3 h4 next3 hbN
                      (fun j0 hj0 => hlowE j0 hj0)).1 j2 hj2lt
                    rw [this, hreadN g]
                  have h2eq : readoutEntriesF g h4 es4 =
                      readoutEntriesF g h rest := by
                    rw [hreadE g]
                    exact (readout_agree g h h3 next hb hlowN).2 rest
                      (fun k0 j0 hm => hrefs k0 j0 (List.mem_cons_of_mem _ hm))
                  simp only [readoutEntriesF]
                  rw [h1, h2eq]

/-- **C9.** `clone()` (deepcopy) of the node at `i`: the clone reads out
structurally equal to the original at every fuel; every pre-existing node is
untouched; the clone and everything it owns live at fresh ids (at or above
`freshId h`); and mutating *any* node in that fresh region — which is where
the clone and all of its descendants live — leaves the readout of every
original node unchanged: the clone shares no mutable state with the
original. -/
theorem clone_is_independent_deep_copy
    (h : Heap) (i fuel : Nat) (h2 : Heap) (i2 next2 : Nat)
    (hwf : HeapBelow h (freshId h))
    (hclone : CfgNode_clone fuel h i = some (h2, i2, next2)) :
    (∀ g, readoutF g h2 i2 = readoutF g h i) ∧
    (∀ g j, j < freshId h → readoutF g h2 j = readoutF g h j) ∧
    freshId h ≤ i2 ∧
    (∀ mid nd' g j, freshId h ≤ mid → j < freshId h →
        readoutF g (hset h2 mid nd') j = readoutF g h j) := by
  obtain ⟨hlow, hle, hlt, hb2, hread⟩ :=
    (copy_spec fuel).1 h (freshId h) i h2 i2 next2 hwf hclone
  refine ⟨hread, ?_, hle, ?_⟩
  · intro g j hj
    exact (readout_agree g h h2 (freshId h) hwf hlow).1 j hj
  · intro mid nd' g j hmid hj
    have hag : ∀ j0, j0 < freshId h →
        hget (hset h2 mid nd') j0 = hget h j0 := by
      intro j0 hj0
      rw [hget_hset_ne h2 mid j0 nd' (by omega), hlow j0 hj0]
    exact (readout_agree g h (hset h2 mid nd') (freshId h) hwf hag).1 j hj

/-- The two-node demonstration heap: node 0 holds a nested node (id 1) and a
scalar. -/
def cloneDemoHeap : Heap :=
  [(0, ⟨[("SUB", .ref 1), ("X", .prim (.vint 3))], metaDefault⟩),
   (1, ⟨[("B", .prim (.vint 1))], metaDefault⟩)]

/-- The heap after cloning node 0 of `cloneDemoHeap`: the copies live at the
fresh ids 2 and 3. -/
def cloneDemoHeap2 : Heap :=
  cloneDemoHeap ++
    [(2, ⟨[("B", .prim (.vint 1))], metaDefault⟩),
     (3, ⟨[("SUB", .ref 2), ("X", .prim (.vint 3))], metaDefault⟩)]

/-- Witness for C9: clone the two-level tree at id 0, then overwrite the
cloned child wholesale; the original still reads out unchanged. -/
theorem clone_is_independent_deep_copy_witness :
    CfgNode_clone 5 cloneDemoHeap 0 = some (cloneDemoHeap2, 3, 4) ∧
    readoutF 6 cloneDemoHeap 0 =
      some (.vnode [("SUB", .vnode [("B", .vint 1)] metaDefault),
        ("X", .vint 3)] metaDefault) ∧
    (∀ g, readoutF g cloneDemoHeap2 3 = readoutF g cloneDemoHeap 0) ∧
    readoutF 6 (hset cloneDemoHeap2 2
        ⟨[("HIJACKED", .prim (.vint 99))], metaDefault⟩) 0 =
      readoutF 6 cloneDemoHeap 0 := by
  have hwf : HeapBelow cloneDemoHeap (freshId cloneDemoHeap) := by
    intro i nd hm
    cases hm with
    | head =>
      refine ⟨by decide, ?_⟩
      intro k j hj
      cases hj with
      | head => decide
      | tail _ hj2 => cases hj2 with
        | tail _ hj3 => cases hj3
    | tail _ hm2 =>
      cases hm2 with
      | head =>
        refine ⟨by decide, ?_⟩
        intro k j hj
        cases hj with
        | tail _ hj3 => cases hj3
      | tail _ hm3 => cases hm3
  have hmain := clone_is_independent_deep_copy cloneDemoHeap 0 5
    cloneDemoHeap2 3 4 hwf rfl
  exact ⟨rfl, rfl, hmain.1,
    hmain.2.2.2 2 ⟨[("HIJACKED", .prim (.vint 99))], metaDefault⟩ 6 0
      (by decide) (by decide)⟩
